import Mathlib

/-!
Verification of the streaming query engine of journal-gatewayd
(src/src/journal/journal-gatewayd.c).

The gateway translates HTTP requests into a positioned cursor over the
journal, drives that cursor under client-controlled filters and pagination,
serializes each entry, and delivers the byte stream through a pull-based
chunked-response callback (the Chunk Pump).

The journal-reader library (sd-journal), the string/number helpers of
util.c (safe_atoi64, safe_atou64, parse_boolean), the serializer
(output_journal, json_escape) and sd_id128_get_boot are code of the
repository that is not under src/; they are modelled from the
specification (sections 6.2, 4.2, 4.5 and 9 of spec.md) and each such
definition carries a doc comment saying so.  Everything else is a direct
shallow embedding of the C in journal-gatewayd.c.

Conventions of the embedding:
* bytes are modelled as Char lists (the C code moves chars);
* C functions returning negative error codes return Int or Option;
* the unbounded while-loops of the pump callbacks take an explicit fuel
  argument; running out of fuel is a distinct outcome (blocked), never
  confused with end-of-stream;
* sd_journal_wait is modelled by a list of pending entry batches on the
  journal; waiting with no pending batch models blocking forever.
-/

/-- One journal record: its opaque cursor token and its serialization in
the connection's negotiated output mode.  Modelled from the spec:
the serializer output_journal (logs-show.c, not under src/) is abstracted
by storing, per record, the byte string it would produce. -/
structure Entry where
  cursor : String
  data : List Char
deriving DecidableEq

/-- Modelled from the spec: the read position of an sd_journal handle.
head and tail are the states after sd_journal_seek_head / seek_tail,
seekCur the state after sd_journal_seek_cursor, and posAt an exact
position realized on an entry by a next/previous step. -/
inductive Loc where
  | head : Loc
  | posAt : Nat → Loc
  | tail : Loc
  | seekCur : String → Loc
deriving DecidableEq

/-- Modelled from the spec: an open sd_journal handle (section 6.2).
entries is the filtered view of the store in oldest-to-newest order,
pending the batches that future sd_journal_wait calls will deliver,
matchList the accumulated add_match constraints, uniques the value list
that query_unique prepared with uidx the enumeration index into it. -/
structure Journal where
  entries : List Entry
  loc : Loc
  pending : List (List Entry)
  matchList : List (List Char)
  uniques : List (List Char)
  uidx : Nat
deriving DecidableEq

/-- Index of the first element satisfying p, the model of the strchr and
memchr scans and of cursor lookup. -/
def findFirst (p : α → Bool) : List α → Option Nat
  | [] => none
  | x :: xs => if p x then some 0 else (findFirst p xs).map (fun i => i + 1)

/-- Modelled from the spec: sd_journal_next.  Returns 1 and the new
position when there is a further entry, 0 otherwise.  A seek_cursor
location realizes on the entry with the given cursor when it exists and
on the nearest (oldest) entry otherwise. -/
def journalNext (j : Journal) : Nat × Journal :=
  match j.loc with
  | Loc.head =>
      if j.entries.isEmpty then (0, j) else (1, { j with loc := Loc.posAt 0 })
  | Loc.posAt i =>
      if i + 1 < j.entries.length then (1, { j with loc := Loc.posAt (i + 1) }) else (0, j)
  | Loc.tail => (0, j)
  | Loc.seekCur c =>
      match findFirst (fun e => e.cursor = c) j.entries with
      | some i => (1, { j with loc := Loc.posAt i })
      | none =>
          if j.entries.isEmpty then (0, j) else (1, { j with loc := Loc.posAt 0 })

/-- Modelled from the spec: sd_journal_previous, symmetric to
journalNext. -/
def journalPrevious (j : Journal) : Nat × Journal :=
  match j.loc with
  | Loc.tail =>
      if j.entries.isEmpty then (0, j)
      else (1, { j with loc := Loc.posAt (j.entries.length - 1) })
  | Loc.posAt i =>
      if i = 0 then (0, j) else (1, { j with loc := Loc.posAt (i - 1) })
  | Loc.head => (0, j)
  | Loc.seekCur c =>
      match findFirst (fun e => e.cursor = c) j.entries with
      | some i => (1, { j with loc := Loc.posAt i })
      | none =>
          if j.entries.isEmpty then (0, j)
          else (1, { j with loc := Loc.posAt (j.entries.length - 1) })

/-- Modelled from the spec: the do-while loop of real_journal_next_skip,
moving up to k steps forward and returning how many steps succeeded. -/
def journalNextN (j : Journal) : Nat → Nat × Journal
  | 0 => (0, j)
  | k + 1 =>
      let rj := journalNext j
      if rj.1 = 0 then (0, rj.2)
      else
        let cj := journalNextN rj.2 k
        (cj.1 + 1, cj.2)

/-- Modelled from the spec: the do-while loop of real_journal_next_skip
in the backward direction. -/
def journalPreviousN (j : Journal) : Nat → Nat × Journal
  | 0 => (0, j)
  | k + 1 =>
      let rj := journalPrevious j
      if rj.1 = 0 then (0, rj.2)
      else
        let cj := journalPreviousN rj.2 k
        (cj.1 + 1, cj.2)

/-- Modelled from the spec: sd_journal_next_skip.  A zero skip merely
resolves a non-discrete location; the gateway only calls it with a
positive count. -/
def journalNextSkip (j : Journal) (k : Nat) : Nat × Journal :=
  if k = 0 then
    match j.loc with
    | Loc.posAt _ => (0, j)
    | _ => journalNext j
  else journalNextN j k

/-- Modelled from the spec: sd_journal_previous_skip. -/
def journalPreviousSkip (j : Journal) (k : Nat) : Nat × Journal :=
  if k = 0 then
    match j.loc with
    | Loc.posAt _ => (0, j)
    | _ => journalPrevious j
  else journalPreviousN j k

/-- Modelled from the spec: the entry the journal is currently positioned
on, when it is positioned on one. -/
def journalCurrentEntry (j : Journal) : Option Entry :=
  match j.loc with
  | Loc.posAt i => j.entries[i]?
  | _ => none

/-- Modelled from the spec: sd_journal_test_cursor.  Returns 1 when the
current entry is the one the cursor names, 0 when it is not, and a
negative error when the journal is not positioned on an entry. -/
def journalTestCursor (j : Journal) (c : String) : Int :=
  match journalCurrentEntry j with
  | none => -99
  | some e => if e.cursor = c then 1 else 0

/-- Modelled from the spec: sd_journal_wait.  Returns once the store has
changed; the model delivers the next pending batch by appending it to the
entry list.  With no pending batch the call never returns, which callers
model separately. -/
def journalWait (j : Journal) : Journal :=
  match j.pending with
  | [] => j
  | b :: rest => { j with entries := j.entries ++ b, pending := rest }

/-- Modelled from the spec: sd_journal_seek_head. -/
def journalSeekHead (j : Journal) : Int × Journal :=
  (0, { j with loc := Loc.head })

/-- Modelled from the spec: sd_journal_seek_tail. -/
def journalSeekTail (j : Journal) : Int × Journal :=
  (0, { j with loc := Loc.tail })

/-- Modelled from the spec: sd_journal_seek_cursor.  Cursors are opaque
tokens here, so seeking never fails in the model. -/
def journalSeekCursor (j : Journal) (c : String) : Int × Journal :=
  (0, { j with loc := Loc.seekCur c })

/-- Modelled from the spec: sd_journal_add_match, recording one KEY=VALUE
constraint; the entry list of the model is already the filtered view, so
the constraint is only recorded. -/
def journalAddMatch (j : Journal) (p : List Char) : Int × Journal :=
  (0, { j with matchList := j.matchList ++ [p] })

/-- Modelled from the spec: sd_journal_query_unique, preparing the
enumeration of the distinct values of a field and resetting its index. -/
def journalQueryUnique (j : Journal) (_field : List Char) : Int × Journal :=
  (0, { j with uidx := 0 })

/-- Modelled from the spec: sd_journal_enumerate_unique, yielding the
next unique FIELD=VALUE data or 0 at the end of the enumeration. -/
def journalEnumerateUnique (j : Journal) : Nat × List Char × Journal :=
  match j.uniques[j.uidx]? with
  | some d => (1, d, { j with uidx := j.uidx + 1 })
  | none => (0, [], j)

/-- The OutputMode values the gateway uses (logs-show.h); the remaining
enum values of the C type never occur in this program. -/
inductive OutputMode where
  | OUTPUT_SHORT : OutputMode
  | OUTPUT_JSON : OutputMode
  | OUTPUT_JSON_SSE : OutputMode
  | OUTPUT_EXPORT : OutputMode
deriving DecidableEq

/-- The mime_types table of journal-gatewayd.c. -/
def mime_types : OutputMode → String
  | OutputMode.OUTPUT_SHORT => "text/plain"
  | OutputMode.OUTPUT_JSON => "application/json"
  | OutputMode.OUTPUT_JSON_SSE => "text/event-stream"
  | OutputMode.OUTPUT_EXPORT => "application/vnd.fdo.journal"

/-- The RequestMeta connection state of journal-gatewayd.c.  tmp holds
the spill buffer contents (None before the first record), delta the
absolute offset at which the current spill record begins and size its
length, exactly as in the C struct. -/
structure RequestMeta where
  mode : OutputMode
  cursor : Option String
  n_skip : Int
  n_entries : Nat
  n_entries_set : Bool
  tmp : Option (List Char)
  delta : Nat
  size : Nat
  argument_parse_error : Int
  follow : Bool
  discrete : Bool
  n_fields : Nat
  n_fields_set : Bool
deriving DecidableEq

/-- The zero-filled RequestMeta produced by request_meta via new0. -/
def freshMeta : RequestMeta :=
  { mode := OutputMode.OUTPUT_SHORT
    cursor := none
    n_skip := 0
    n_entries := 0
    n_entries_set := false
    tmp := none
    delta := 0
    size := 0
    argument_parse_error := 0
    follow := false
    discrete := false
    n_fields := 0
    n_fields_set := false }

/-- The WHITESPACE character class of util.h: space, tab, newline,
carriage return. -/
def isWS (c : Char) : Bool :=
  c = ' ' ∨ c = '\t' ∨ c = '\n' ∨ c = '\r'

/-- The startswith helper of util.c on char lists. -/
def startswith : List Char → List Char → Bool
  | _, [] => true
  | [], _ :: _ => false
  | c :: s, p :: ps => c = p && startswith s ps

/-- Decimal digit accumulator shared by the number parsers. -/
def parseDigitsAux : Nat → List Char → Option Nat
  | acc, [] => some acc
  | acc, c :: cs =>
      if '0' ≤ c ∧ c ≤ '9' then parseDigitsAux (acc * 10 + (c.toNat - '0'.toNat)) cs
      else none

/-- Nonempty all-decimal string to Nat, rejecting anything else. -/
def parseDigits : List Char → Option Nat
  | [] => none
  | cs => parseDigitsAux 0 cs

/-- Modelled from the spec: safe_atoi64 of util.c, parsing a signed
64-bit decimal integer and rejecting empty strings, stray characters
and out-of-range values (spec 4.2: n_skip is a signed 64-bit integer). -/
def safe_atoi64 (s : List Char) : Option Int :=
  match s with
  | '-' :: rest =>
      match parseDigits rest with
      | some n => if n ≤ 2 ^ 63 then some (-(n : Int)) else none
      | none => none
  | '+' :: rest =>
      match parseDigits rest with
      | some n => if n < 2 ^ 63 then some (n : Int) else none
      | none => none
  | _ =>
      match parseDigits s with
      | some n => if n < 2 ^ 63 then some (n : Int) else none
      | none => none

/-- Modelled from the spec: safe_atou64 of util.c, parsing an unsigned
64-bit decimal integer (spec 4.2: n_entries is an unsigned 64-bit
integer). -/
def safe_atou64 (s : List Char) : Option Nat :=
  match parseDigits s with
  | some n => if n < 2 ^ 64 then some n else none
  | none => none

/-- Modelled from the spec: parse_boolean of util.c (spec 4.2: the
follow, discrete and boot arguments take a boolean value).  Returns 1
for a true word, 0 for a false word, a negative error otherwise. -/
def parse_boolean (v : List Char) : Int :=
  if v = "1".toList ∨ v = "yes".toList ∨ v = "y".toList ∨ v = "true".toList ∨
      v = "t".toList ∨ v = "on".toList then 1
  else if v = "0".toList ∨ v = "no".toList ∨ v = "n".toList ∨ v = "false".toList ∨
      v = "f".toList ∨ v = "off".toList then 0
  else -22

/-- request_parse_accept of journal-gatewayd.c: exact string comparison
of the Accept header against the mime table, falling back to
OUTPUT_SHORT; a missing header leaves the state untouched. -/
def requestParseAccept (header : Option (List Char)) (m : RequestMeta) : RequestMeta :=
  match header with
  | none => m
  | some h =>
      if h = (mime_types OutputMode.OUTPUT_JSON).toList then
        { m with mode := OutputMode.OUTPUT_JSON }
      else if h = (mime_types OutputMode.OUTPUT_JSON_SSE).toList then
        { m with mode := OutputMode.OUTPUT_JSON_SSE }
      else if h = (mime_types OutputMode.OUTPUT_EXPORT).toList then
        { m with mode := OutputMode.OUTPUT_EXPORT }
      else
        { m with mode := OutputMode.OUTPUT_SHORT }

/-- The cursor finalization at the end of request_parse_range: the raw
cursor is cut at its first whitespace character (the C writes a NUL at
strcspn(cursor, WHITESPACE)) and an empty result means no cursor. -/
def finalizeCursor (craw : List Char) (m : RequestMeta) : RequestMeta :=
  let c := craw.takeWhile (fun ch => ! isWS ch)
  if c = [] then { m with cursor := none }
  else { m with cursor := some (String.mk c) }

/-- request_parse_range of journal-gatewayd.c.  none is a parse failure
(the handler answers 400); a missing header or one without the entries=
prefix leaves the state untouched. -/
def requestParseRange (header : Option (List Char)) (m : RequestMeta) :
    Option RequestMeta :=
  match header with
  | none => some m
  | some r0 =>
      if startswith r0 "entries=".toList = false then some m
      else
        let r1 := (r0.drop 8).dropWhile (fun c => isWS c)
        match findFirst (fun c => c = ':') r1 with
        | none => some (finalizeCursor r1 m)
        | some k =>
            let afterColon := r1.drop (k + 1)
            let step2 : Option RequestMeta :=
              match findFirst (fun c => c = ':') afterColon with
              | some k2 =>
                  match safe_atoi64 (afterColon.take k2) with
                  | none => none
                  | some sk => some { m with n_skip := sk }
              | none => some m
            match step2 with
            | none => none
            | some m1 =>
                let p :=
                  match findFirst (fun c => c = ':') afterColon with
                  | some k2 => afterColon.drop (k2 + 1)
                  | none => afterColon
                if p = [] then some (finalizeCursor (r1.take k) m1)
                else
                  match safe_atou64 p with
                  | none => none
                  | some n =>
                      if n = 0 then none
                      else
                        some (finalizeCursor (r1.take k)
                          { m1 with n_entries := n, n_entries_set := true })

/-- request_parse_arguments_iterator of journal-gatewayd.c.  bootId
stands for the result of sd_id128_get_boot (None models its failure,
which the C logs and aborts iteration on without touching
argument_parse_error).  The Bool is MHD_YES/MHD_NO: whether iteration
continues. -/
def request_parse_arguments_iterator (bootId : Option (List Char))
    (m : RequestMeta) (j : Journal) (key : List Char) (value : Option (List Char)) :
    Bool × RequestMeta × Journal :=
  if key = [] then
    (false, { m with argument_parse_error := -22 }, j)
  else if key = "follow".toList then
    match value with
    | none => (true, { m with follow := true }, j)
    | some [] => (true, { m with follow := true }, j)
    | some v =>
        let r := parse_boolean v
        if r < 0 then (false, { m with argument_parse_error := r }, j)
        else (true, { m with follow := r ≠ 0 }, j)
  else if key = "discrete".toList then
    match value with
    | none => (true, { m with discrete := true }, j)
    | some [] => (true, { m with discrete := true }, j)
    | some v =>
        let r := parse_boolean v
        if r < 0 then (false, { m with argument_parse_error := r }, j)
        else (true, { m with discrete := r ≠ 0 }, j)
  else if key = "boot".toList then
    let rb : Int :=
      match value with
      | none => 1
      | some [] => 1
      | some v => parse_boolean v
    if rb < 0 then (false, { m with argument_parse_error := rb }, j)
    else if rb ≠ 0 then
      match bootId with
      | none => (false, m, j)
      | some bid =>
          let rj := journalAddMatch j ("_BOOT_ID=".toList ++ bid)
          if rj.1 < 0 then (false, { m with argument_parse_error := rj.1 }, rj.2)
          else (true, m, rj.2)
    else (true, m, j)
  else
    let p := key ++ "=".toList ++ value.getD []
    let rj := journalAddMatch j p
    if rj.1 < 0 then (false, { m with argument_parse_error := rj.1 }, rj.2)
    else (true, m, rj.2)

/-- MHD_get_connection_values: feed each query argument to the iterator
until it asks to stop. -/
def runArgsIter (bootId : Option (List Char)) (m : RequestMeta) (j : Journal) :
    List (List Char × Option (List Char)) → RequestMeta × Journal
  | [] => (m, j)
  | (k, v) :: rest =>
      let r := request_parse_arguments_iterator bootId m j k v
      if r.1 then runArgsIter bootId r.2.1 r.2.2 rest else (r.2.1, r.2.2)

/-- request_parse_arguments of journal-gatewayd.c: clear the sticky
field, run the iterator over every argument, and let the caller read the
field back. -/
def request_parse_arguments (bootId : Option (List Char)) (m : RequestMeta)
    (j : Journal) (args : List (List Char × Option (List Char))) :
    RequestMeta × Journal :=
  runArgsIter bootId { m with argument_parse_error := 0 } j args

/-- Outcome of one turn of the serialization loop in
request_reader_entries: a freshly serialized record together with the
updated state, a decision to end the stream, an error, or the blocking
of sd_journal_wait with nothing left to wait for. -/
inductive EmitStep where
  | record : Entry → RequestMeta → Journal → EmitStep
  | eos : RequestMeta → Journal → EmitStep
  | fail : EmitStep
  | blocked : EmitStep
deriving DecidableEq

/-- The state updates lines 231-261 of journal-gatewayd.c perform when a
record is serialized: delta grows by the size of the record just
consumed, the entry counter is decremented when capped, n_skip is
cleared, and the spill buffer is rewound and overwritten. -/
def recordUpdate (m : RequestMeta) (e : Entry) : RequestMeta :=
  { m with
    delta := m.delta + m.size
    n_entries := if m.n_entries_set then m.n_entries - 1 else m.n_entries
    n_skip := 0
    tmp := some e.data
    size := e.data.length }

/-- The journal advance of request_reader_entries lines 193-198: move
backwards by one more than the absolute skip, forwards by one more than
the skip, or forwards by one. -/
def advanceJournal (m : RequestMeta) (j : Journal) : Nat × Journal :=
  if m.n_skip < 0 then journalPreviousSkip j ((-m.n_skip).toNat + 1)
  else if 0 < m.n_skip then journalNextSkip j (m.n_skip.toNat + 1)
  else journalNext j

/-- One turn of the while-loop body of request_reader_entries (lines
189-261): cap check, journal advance, follow-mode wait and retry,
discrete cursor test, then serialization.  The fuel bounds only the
wait retries; EmitStep.blocked stands for a sd_journal_wait that never
returns. -/
def emitNext : Nat → RequestMeta → Journal → EmitStep
  | 0, _, _ => EmitStep.blocked
  | f + 1, m, j =>
      if m.n_entries_set = true ∧ m.n_entries = 0 then EmitStep.eos m j
      else
        let rj := advanceJournal m j
        if rj.1 = 0 then
          if m.follow then
            match rj.2.pending with
            | [] => EmitStep.blocked
            | _ :: _ => emitNext f m (journalWait rj.2)
          else EmitStep.eos m rj.2
        else
          match journalCurrentEntry rj.2 with
          | none => EmitStep.fail
          | some e =>
              if m.discrete then
                match m.cursor with
                | none => EmitStep.fail
                | some c =>
                    let t := journalTestCursor rj.2 c
                    if t < 0 then EmitStep.fail
                    else if t = 0 then EmitStep.eos m rj.2
                    else EmitStep.record e (recordUpdate m e) rj.2
              else EmitStep.record e (recordUpdate m e) rj.2

/-- Result of one pump callback: bytes written into the caller's buffer,
MHD_CONTENT_READER_END_OF_STREAM, MHD_CONTENT_READER_END_WITH_ERROR, or
a callback that never returns (follow mode waiting forever). -/
inductive PumpResult where
  | chunk : List Char → PumpResult
  | eos : PumpResult
  | err : PumpResult
  | blocked : PumpResult
deriving DecidableEq

/-- The tail of both reader callbacks (lines 264-280): seek the spill
buffer to the local position and read min(size - pos, max) bytes; a
short read is an error. -/
def serveChunk (m : RequestMeta) (lpos max : Nat) : PumpResult :=
  let content := m.tmp.getD []
  let n := min (m.size - lpos) max
  let bs := (content.drop lpos).take n
  if bs.length = n then PumpResult.chunk bs else PumpResult.err

/-- The while-loop of request_reader_entries followed by the serve of
the current record.  lpos is pos - delta.  The fuel bounds loop turns;
running out is PumpResult.blocked, distinct from end-of-stream. -/
def entriesLoop : Nat → RequestMeta → Journal → Nat → Nat → PumpResult × RequestMeta × Journal
  | 0, m, j, _, _ => (PumpResult.blocked, m, j)
  | lf + 1, m, j, lpos, max =>
      if lpos < m.size then (serveChunk m lpos max, m, j)
      else
        match emitNext (lf + 1) m j with
        | EmitStep.record _ m' j' => entriesLoop lf m' j' (lpos - m.size) max
        | EmitStep.eos m' j' => (PumpResult.eos, m', j')
        | EmitStep.fail => (PumpResult.err, m, j)
        | EmitStep.blocked => (PumpResult.blocked, m, j)

/-- request_reader_entries of journal-gatewayd.c.  The C asserts
pos ≥ delta; theorems only apply it at such positions. -/
def request_reader_entries (lf : Nat) (m : RequestMeta) (j : Journal)
    (pos max : Nat) : PumpResult × RequestMeta × Journal :=
  entriesLoop lf m j (pos - m.delta) max

/-- How a run of the serialization loop ended. -/
inductive EmitOutcome where
  | fin : EmitOutcome
  | failed : EmitOutcome
  | waiting : EmitOutcome
  | outOfFuel : EmitOutcome
deriving DecidableEq

/-- The sequence of records the entries pump serializes from a given
state, in emission order, together with how the sequence ends.  This is
the record-level reading of spec section 4.3 (Emit next, entries mode);
each element is produced by one emitNext turn. -/
def emitList : Nat → RequestMeta → Journal → List Entry × EmitOutcome × RequestMeta × Journal
  | 0, m, j => ([], EmitOutcome.outOfFuel, m, j)
  | f + 1, m, j =>
      match emitNext (f + 1) m j with
      | EmitStep.record e m' j' =>
          let r := emitList f m' j'
          (e :: r.1, r.2)
      | EmitStep.eos m' j' => ([], EmitOutcome.fin, m', j')
      | EmitStep.fail => ([], EmitOutcome.failed, m, j)
      | EmitStep.blocked => ([], EmitOutcome.waiting, m, j)

/-- The pump at state (m, j) emits exactly the records l and then ends
its stream normally, leaving state (mf, jf). -/
def Emits (m : RequestMeta) (j : Journal) (l : List Entry)
    (mf : RequestMeta) (jf : Journal) : Prop :=
  ∃ f, emitList f m j = (l, EmitOutcome.fin, mf, jf)

/-- How a drained connection ended. -/
inductive DrainOutcome where
  | eos : DrainOutcome
  | error : DrainOutcome
  | blocked : DrainOutcome
  | fuelOut : DrainOutcome
deriving DecidableEq

/-- The HTTP runtime's contiguous pull schedule on the entries pump:
call the reader, append the bytes it returns, and call again at the
previous offset plus the bytes returned, until the stream ends. -/
def drainEntries : Nat → Nat → RequestMeta → Journal → Nat → Nat →
    List Char × DrainOutcome × RequestMeta × Journal
  | 0, _, m, j, _, _ => ([], DrainOutcome.fuelOut, m, j)
  | df + 1, lf, m, j, pos, max =>
      match request_reader_entries lf m j pos max with
      | (PumpResult.chunk bs, m', j') =>
          let r := drainEntries df lf m' j' (pos + bs.length) max
          (bs ++ r.1, r.2)
      | (PumpResult.eos, m', j') => ([], DrainOutcome.eos, m', j')
      | (PumpResult.err, m', j') => ([], DrainOutcome.error, m', j')
      | (PumpResult.blocked, m', j') => ([], DrainOutcome.blocked, m', j')

/-- A pull schedule with arbitrary offsets: call the reader at each
listed offset in turn with a one-byte buffer, concatenating whatever
comes back, and report how the last call ended. -/
def pumpSeq (lf max : Nat) : List Nat → RequestMeta → Journal → List Char × PumpResult
  | [], _, _ => ([], PumpResult.err)
  | [p], m, j =>
      let r := request_reader_entries lf m j p max
      (match r.1 with
       | PumpResult.chunk bs => bs
       | _ => [], r.1)
  | p :: p2 :: ps, m, j =>
      match request_reader_entries lf m j p max with
      | (PumpResult.chunk bs, m', j') =>
          let r := pumpSeq lf max (p2 :: ps) m' j'
          (bs ++ r.1, r.2)
      | (r, _, _) => ([], r)

/-- Result of a handler: an error response with its status code, or a
committed streaming response described by the state the pump will run
from and the advertised Content-Type. -/
inductive HandlerResult where
  | response : Nat → String → HandlerResult
  | stream : RequestMeta → Journal → String → HandlerResult
deriving DecidableEq

/-- Whether a handler committed a streaming 200 response. -/
def HandlerResult.isStream : HandlerResult → Bool
  | HandlerResult.stream _ _ _ => true
  | _ => false

/-- The cursor seeding of request_handler_entries lines 515-520: seek to
the cursor when one is set, else to the head for a non-negative skip,
else to the tail. -/
def seekEntries (m : RequestMeta) (j : Journal) : Int × Journal :=
  match m.cursor with
  | some c => journalSeekCursor j c
  | none => if 0 ≤ m.n_skip then journalSeekHead j else journalSeekTail j

/-- request_handler_entries of journal-gatewayd.c, from the point the
journal is open: parse Accept, Range and the query arguments, reject
discrete requests without a cursor, force the discrete entry cap, seed
the journal position, and commit the streaming response. -/
def request_handler_entries (accept range_hdr : Option (List Char))
    (args : List (List Char × Option (List Char))) (bootId : Option (List Char))
    (j0 : Journal) : HandlerResult :=
  let m0 := requestParseAccept accept freshMeta
  match requestParseRange range_hdr m0 with
  | none => HandlerResult.response 400 "text/plain"
  | some m1 =>
      let mj := request_parse_arguments bootId m1 j0 args
      if mj.1.argument_parse_error < 0 then HandlerResult.response 400 "text/plain"
      else if mj.1.discrete = true ∧ mj.1.cursor = none then
        HandlerResult.response 400 "text/plain"
      else
        let m3 :=
          if mj.1.discrete then { mj.1 with n_entries := 1, n_entries_set := true }
          else mj.1
        let rj := seekEntries m3 mj.2
        if rj.1 < 0 then HandlerResult.response 400 "text/plain"
        else HandlerResult.stream m3 rj.2 (mime_types m3.mode)

/-- Modelled from the spec: json_escape of logs-show.c as used by
output_field, emitting the value as a quoted JSON string with the quote
and backslash characters escaped (spec 4.5: proper JSON escaping of the
value). -/
def json_escape (v : List Char) : List Char :=
  '\"' :: ((v.map (fun c => if c = '\"' ∨ c = '\\' then ['\\', c] else [c])).flatten ++ ['\"'])

/-- output_field of journal-gatewayd.c: split the unique FIELD=VALUE
data on its first equals sign (none is an error), then emit either the
one-key JSON object or the raw value followed by a newline. -/
def output_field (mode : OutputMode) (d : List Char) : Option (List Char) :=
  match findFirst (fun c => c = '=') d with
  | none => none
  | some k =>
      let nm := d.take k
      let v := d.drop (k + 1)
      if mode = OutputMode.OUTPUT_JSON then
        some ("\x7b \"".toList ++ nm ++ "\" : ".toList ++ json_escape v ++ " \x7d\n".toList)
      else some (v ++ ['\n'])

/-- Outcome of one turn of the serialization loop in
request_reader_fields. -/
inductive FieldStep where
  | record : List Char → RequestMeta → Journal → FieldStep
  | eos : RequestMeta → Journal → FieldStep
  | fail : FieldStep
deriving DecidableEq

/-- The state updates lines 594-622 of journal-gatewayd.c perform when a
unique value is serialized. -/
def fieldUpdate (m : RequestMeta) (bs : List Char) : RequestMeta :=
  { m with
    delta := m.delta + m.size
    n_fields := if m.n_fields_set then m.n_fields - 1 else m.n_fields
    tmp := some bs
    size := bs.length }

/-- One turn of the while-loop body of request_reader_fields (lines
583-622): cap check, unique-value enumeration, serialization. -/
def fieldsEmitNext (m : RequestMeta) (j : Journal) : FieldStep :=
  if m.n_fields_set = true ∧ m.n_fields = 0 then FieldStep.eos m j
  else
    let rj := journalEnumerateUnique j
    if rj.1 = 0 then FieldStep.eos m rj.2.2
    else
      match output_field m.mode rj.2.1 with
      | none => FieldStep.fail
      | some bs => FieldStep.record bs (fieldUpdate m bs) rj.2.2

/-- The while-loop of request_reader_fields followed by the serve of the
current record. -/
def fieldsLoop : Nat → RequestMeta → Journal → Nat → Nat → PumpResult × RequestMeta × Journal
  | 0, m, j, _, _ => (PumpResult.blocked, m, j)
  | lf + 1, m, j, lpos, max =>
      if lpos < m.size then (serveChunk m lpos max, m, j)
      else
        match fieldsEmitNext m j with
        | FieldStep.record _ m' j' => fieldsLoop lf m' j' (lpos - m.size) max
        | FieldStep.eos m' j' => (PumpResult.eos, m', j')
        | FieldStep.fail => (PumpResult.err, m, j)

/-- request_reader_fields of journal-gatewayd.c. -/
def request_reader_fields (lf : Nat) (m : RequestMeta) (j : Journal)
    (pos max : Nat) : PumpResult × RequestMeta × Journal :=
  fieldsLoop lf m j (pos - m.delta) max

/-- The contiguous pull schedule on the fields pump. -/
def drainFields : Nat → Nat → RequestMeta → Journal → Nat → Nat →
    List Char × DrainOutcome × RequestMeta × Journal
  | 0, _, m, j, _, _ => ([], DrainOutcome.fuelOut, m, j)
  | df + 1, lf, m, j, pos, max =>
      match request_reader_fields lf m j pos max with
      | (PumpResult.chunk bs, m', j') =>
          let r := drainFields df lf m' j' (pos + bs.length) max
          (bs ++ r.1, r.2)
      | (PumpResult.eos, m', j') => ([], DrainOutcome.eos, m', j')
      | (PumpResult.err, m', j') => ([], DrainOutcome.error, m', j')
      | (PumpResult.blocked, m', j') => ([], DrainOutcome.blocked, m', j')

/-- The serialized unique values the fields pump emits from a given
state, in enumeration order. -/
def fieldsEmitList : Nat → RequestMeta → Journal → List (List Char) × EmitOutcome × RequestMeta × Journal
  | 0, m, j => ([], EmitOutcome.outOfFuel, m, j)
  | f + 1, m, j =>
      match fieldsEmitNext m j with
      | FieldStep.record bs m' j' =>
          let r := fieldsEmitList f m' j'
          (bs :: r.1, r.2)
      | FieldStep.eos m' j' => ([], EmitOutcome.fin, m', j')
      | FieldStep.fail => ([], EmitOutcome.failed, m, j)

/-- The fields pump at state (m, j) emits exactly the byte strings l and
ends its stream normally. -/
def FieldsEmits (m : RequestMeta) (j : Journal) (l : List (List Char))
    (mf : RequestMeta) (jf : Journal) : Prop :=
  ∃ f, fieldsEmitList f m j = (l, EmitOutcome.fin, mf, jf)

/-- request_handler_fields of journal-gatewayd.c, from the point the
journal is open: parse Accept, prepare the unique-value query, and
commit the streaming response; the Content-Type degrades every mode but
JSON to plaintext. -/
def request_handler_fields (accept : Option (List Char)) (field : List Char)
    (j0 : Journal) : HandlerResult :=
  let m0 := requestParseAccept accept freshMeta
  let rj := journalQueryUnique j0 field
  if rj.1 < 0 then HandlerResult.response 400 "text/plain"
  else
    HandlerResult.stream m0 rj.2
      (mime_types
        (if m0.mode = OutputMode.OUTPUT_JSON then OutputMode.OUTPUT_JSON
         else OutputMode.OUTPUT_SHORT))

/-- The spill-buffer invariant of the pump: the buffer holds exactly
size bytes. -/
def SpillInv (m : RequestMeta) : Prop :=
  (m.tmp.getD []).length = m.size

/-- The entries the pump would still traverse moving forward one at a
time from the journal's current position (used to characterize runs
with a zero skip). -/
def fwdRemaining (j : Journal) : List Entry :=
  match j.loc with
  | Loc.head => j.entries
  | Loc.posAt i => j.entries.drop (i + 1)
  | Loc.tail => []
  | Loc.seekCur c =>
      match findFirst (fun e => e.cursor = c) j.entries with
      | some i => j.entries.drop i
      | none => j.entries

/-- The entries pump can serialize record e in one loop turn (with some
number of follow-mode wait retries), moving from state (m, j) to
state (m', j'). -/
def StepRec (m : RequestMeta) (j : Journal) (e : Entry)
    (m' : RequestMeta) (j' : Journal) : Prop :=
  ∃ f, emitNext f m j = EmitStep.record e m' j'

/-- The entries pump decides in one loop turn to end the stream. -/
def StepEos (m : RequestMeta) (j : Journal)
    (m' : RequestMeta) (j' : Journal) : Prop :=
  ∃ f, emitNext f m j = EmitStep.eos m' j'

/-- A finite run of successful serialization turns of the entries pump,
recording the emitted records in order. -/
inductive EmitChain : RequestMeta → Journal → List Entry → RequestMeta → Journal → Prop where
  | nil : ∀ m j, EmitChain m j [] m j
  | cons : ∀ m j e m' j' l m'' j'', StepRec m j e m' j' →
      EmitChain m' j' l m'' j'' → EmitChain m j (e :: l) m'' j''

/-- A finite run of successful serialization turns of the fields pump,
recording the serialized unique values in order. -/
inductive FieldsChain : RequestMeta → Journal → List (List Char) → RequestMeta → Journal → Prop where
  | nil : ∀ m j, FieldsChain m j [] m j
  | cons : ∀ m j bs m' j' l m'' j'', fieldsEmitNext m j = FieldStep.record bs m' j' →
      FieldsChain m' j' l m'' j'' → FieldsChain m j (bs :: l) m'' j''

/-! Concrete fixtures used by the claim witnesses and counterexamples. -/

/-- A one-record journal whose record serializes to two bytes. -/
def entryAB : Entry := ⟨"c1", ['a', 'b']⟩

/-- Journal holding just entryAB, seeded at the head. -/
def c1Journal : Journal := ⟨[entryAB], Loc.head, [], [], [], 0⟩

/-- State of a fresh connection after emitting entryAB. -/
def c1mf : RequestMeta := recordUpdate freshMeta entryAB

/-- Journal position after emitting entryAB. -/
def c1jf : Journal := ⟨[entryAB], Loc.posAt 0, [], [], [], 0⟩

/-- A one-record journal whose record's cursor is y. -/
def entryY : Entry := ⟨"y", ['a']⟩

/-- Journal holding just entryY. -/
def cexJournal : Journal := ⟨[entryY], Loc.head, [], [], [], 0⟩

/-- A discrete request for cursor x against the journal that only has
cursor y. -/
def c3Handler : HandlerResult :=
  request_handler_entries none (some "entries=x".toList)
    [("discrete".toList, none)] none cexJournal

/-- The streaming state the discrete-mismatch request commits. -/
def c3Stream : RequestMeta × Journal :=
  match c3Handler with
  | HandlerResult.stream m j _ => (m, j)
  | _ => (freshMeta, cexJournal)

/-- Three records with one-byte serializations a, b, c from oldest to
newest. -/
def c5Entries : List Entry := [⟨"e0", ['a']⟩, ⟨"e1", ['b']⟩, ⟨"e2", ['c']⟩]

/-- Journal holding c5Entries. -/
def c5Journal : Journal := ⟨c5Entries, Loc.head, [], [], [], 0⟩

/-- The request Range: entries=:-1: against the three-record journal. -/
def c5Handler : HandlerResult :=
  request_handler_entries none (some "entries=:-1:".toList) [] none c5Journal

/-- The streaming state the entries=:-1: request commits. -/
def c5Stream : RequestMeta × Journal :=
  match c5Handler with
  | HandlerResult.stream m j _ => (m, j)
  | _ => (freshMeta, c5Journal)

/-- A follow-mode discrete request for cursor x against the journal that
only has cursor y. -/
def c6Handler : HandlerResult :=
  request_handler_entries none (some "entries=x".toList)
    [("discrete".toList, none), ("follow".toList, none)] none cexJournal

/-- The streaming state the follow-mode discrete request commits. -/
def c6Stream : RequestMeta × Journal :=
  match c6Handler with
  | HandlerResult.stream m j _ => (m, j)
  | _ => (freshMeta, cexJournal)

/-- A Range header whose cursor part has interior whitespace. -/
def c8Parsed : Option RequestMeta :=
  requestParseRange (some "entries=a b:1".toList) freshMeta

/-- An empty journal. -/
def emptyJournal : Journal := ⟨[], Loc.head, [], [], [], 0⟩

/-- A boot-filtered request whose boot-ID lookup fails. -/
def c9Handler : HandlerResult :=
  request_handler_entries none none [("boot".toList, none)] none emptyJournal

/-- The argument-parse result of the failed boot-ID lookup. -/
def c9Args : RequestMeta × Journal :=
  request_parse_arguments none freshMeta emptyJournal [("boot".toList, none)]

/-- A journal prepared with two unique values of field A. -/
def c10Journal : Journal := ⟨[], Loc.head, [], [], ["A=1".toList, "A=2".toList], 0⟩

/-- Following the amended spec wording for the cursor stored from a
Range header: of the body after entries= and leading whitespace, the
text before the first colon (or all of it without a colon), truncated
at its first whitespace character; empty means no cursor. -/
def specRangeCursor (body : List Char) : Option String :=
  let r1 := body.dropWhile (fun c => isWS c)
  let craw :=
    match findFirst (fun c => c = ':') r1 with
    | none => r1
    | some k => r1.take k
  let c := craw.takeWhile (fun ch => ! isWS ch)
  if c = [] then none else some (String.mk c)

/-- The parse of the whitespace-free range header entries=abc:2. -/
def c8w : RequestMeta :=
  (requestParseRange (some "entries=abc:2".toList) freshMeta).getD freshMeta

/-! Lemmas.  First the scanning helper, then the fueled serialization
step: more fuel never changes a step that did not block, each record
step performs exactly the recordUpdate state change, and steps are
deterministic. -/

/-- findFirst yields an index inside the list. -/
theorem findFirst_bound {p : α → Bool} :
    ∀ {l : List α} {i : Nat}, findFirst p l = some i → i < l.length := by
  intro l
  induction l with
  | nil => intro i h; simp [findFirst] at h
  | cons x xs ih =>
      intro i h
      simp only [findFirst] at h
      cases hx : p x with
      | true =>
          simp [hx] at h
          simp [← h]
      | false =>
          simp only [hx, if_neg] at h
          simp only [Bool.false_eq_true, if_false, Option.map_eq_some'] at h
          obtain ⟨a, ha, hai⟩ := h
          have := ih ha
          simp only [List.length_cons]
          omega

/-- findFirst finds an element satisfying the predicate. -/
theorem findFirst_get {p : α → Bool} :
    ∀ {l : List α} {i : Nat}, findFirst p l = some i →
      ∃ x, l[i]? = some x ∧ p x = true := by
  intro l
  induction l with
  | nil => intro i h; simp [findFirst] at h
  | cons x xs ih =>
      intro i h
      simp only [findFirst] at h
      cases hx : p x with
      | true =>
          simp [hx] at h
          exact ⟨x, by simp [← h], hx⟩
      | false =>
          simp only [hx, Bool.false_eq_true, if_false, Option.map_eq_some'] at h
          obtain ⟨a, ha, hai⟩ := h
          obtain ⟨y, hy, hpy⟩ := ih ha
          exact ⟨y, by simp [← hai, hy], hpy⟩

/-- When findFirst finds nothing, no element satisfies the predicate. -/
theorem findFirst_none {p : α → Bool} :
    ∀ {l : List α}, findFirst p l = none → ∀ x ∈ l, p x = false := by
  intro l
  induction l with
  | nil => intro _ x hx; simp at hx
  | cons y ys ih =>
      intro h x hx
      simp only [findFirst] at h
      cases hy : p y with
      | true => simp [hy] at h
      | false =>
          simp only [hy, Bool.false_eq_true, if_false, Option.map_eq_none'] at h
          rcases List.mem_cons.mp hx with rfl | hmem
          · exact hy
          · exact ih h x hmem

/-- Extra wait fuel never changes a serialization step that did not
block. -/
theorem emitNext_mono : ∀ (f g : Nat) (m : RequestMeta) (j : Journal), f ≤ g →
    emitNext f m j ≠ EmitStep.blocked → emitNext g m j = emitNext f m j := by
  intro f
  induction f with
  | zero => intro g m j _ hne; simp [emitNext] at hne
  | succ f ih =>
      intro g m j hle hne
      obtain ⟨g', rfl⟩ : ∃ g', g = g' + 1 := ⟨g - 1, by omega⟩
      simp only [emitNext] at hne ⊢
      by_cases h1 : m.n_entries_set = true ∧ m.n_entries = 0
      · simp only [if_pos h1]
      · simp only [if_neg h1] at hne ⊢
        by_cases h2 : (advanceJournal m j).1 = 0
        · simp only [if_pos h2] at hne ⊢
          by_cases h3 : m.follow = true
          · simp only [if_pos h3] at hne ⊢
            cases hp : (advanceJournal m j).2.pending with
            | nil => simp only [hp] at hne; exact absurd rfl hne
            | cons b rest => simp only [hp] at hne ⊢; exact ih g' m _ (by omega) hne
          · simp only [if_neg h3]
        · simp only [if_neg h2]

/-- A record-producing serialization turn performs exactly the
recordUpdate state change and leaves the journal positioned on the
emitted entry. -/
theorem emitNext_record_state : ∀ (f : Nat) (m : RequestMeta) (j : Journal) (e : Entry)
    (m' : RequestMeta) (j' : Journal), emitNext f m j = EmitStep.record e m' j' →
    m' = recordUpdate m e ∧ journalCurrentEntry j' = some e := by
  intro f
  induction f with
  | zero => intro m j e m' j' h; simp [emitNext] at h
  | succ f ih =>
      intro m j e m' j' h
      simp only [emitNext] at h
      by_cases h1 : m.n_entries_set = true ∧ m.n_entries = 0
      · simp only [if_pos h1] at h; simp at h
      · simp only [if_neg h1] at h
        by_cases h2 : (advanceJournal m j).1 = 0
        · simp only [if_pos h2] at h
          by_cases h3 : m.follow = true
          · simp only [if_pos h3] at h
            cases hp : (advanceJournal m j).2.pending with
            | nil => simp only [hp] at h; simp at h
            | cons b rest => simp only [hp] at h; exact ih _ _ _ _ _ h
          · simp only [if_neg h3] at h; simp at h
        · simp only [if_neg h2] at h
          cases hce : journalCurrentEntry (advanceJournal m j).2 with
          | none => simp only [hce] at h; simp at h
          | some e0 =>
              simp only [hce] at h
              by_cases hd : m.discrete = true
              · simp only [if_pos hd] at h
                cases hc : m.cursor with
                | none => simp only [hc] at h; simp at h
                | some c =>
                    simp only [hc] at h
                    by_cases ht1 : journalTestCursor (advanceJournal m j).2 c < 0
                    · simp only [if_pos ht1] at h; simp at h
                    · simp only [if_neg ht1] at h
                      by_cases ht2 : journalTestCursor (advanceJournal m j).2 c = 0
                      · simp only [if_pos ht2] at h; simp at h
                      · simp only [if_neg ht2] at h
                        injection h with he hm hj
                        subst he; subst hm; subst hj
                        exact ⟨rfl, hce⟩
              · simp only [if_neg hd] at h
                injection h with he hm hj
                subst he; subst hm; subst hj
                exact ⟨rfl, hce⟩

/-- Two non-blocking serialization turns from the same state agree. -/
theorem emitNext_det {f g : Nat} {m : RequestMeta} {j : Journal} {A B : EmitStep}
    (hA : emitNext f m j = A) (hB : emitNext g m j = B)
    (hnA : A ≠ EmitStep.blocked) (hnB : B ≠ EmitStep.blocked) : A = B := by
  have h1 := emitNext_mono f (max f g) m j (le_max_left f g) (by rw [hA]; exact hnA)
  have h2 := emitNext_mono g (max f g) m j (le_max_right f g) (by rw [hB]; exact hnB)
  rw [hA] at h1
  rw [hB] at h2
  rw [← h1, ← h2]

/-- Extra fuel never changes an emission run that ended normally. -/
theorem emitList_fin_mono : ∀ (f g : Nat) (m : RequestMeta) (j : Journal)
    (l : List Entry) (mf : RequestMeta) (jf : Journal), f ≤ g →
    emitList f m j = (l, EmitOutcome.fin, mf, jf) →
    emitList g m j = (l, EmitOutcome.fin, mf, jf) := by
  intro f
  induction f with
  | zero => intro g m j l mf jf _ h; simp [emitList] at h
  | succ f ih =>
      intro g m j l mf jf hle h
      obtain ⟨g', rfl⟩ : ∃ g', g = g' + 1 := ⟨g - 1, by omega⟩
      simp only [emitList] at h ⊢
      cases hstep : emitNext (f + 1) m j with
      | record e m' j' =>
          rw [hstep] at h
          have hg : emitNext (g' + 1) m j = EmitStep.record e m' j' := by
            rw [emitNext_mono (f + 1) (g' + 1) m j (by omega) (by rw [hstep]; simp), hstep]
          rw [hg]
          dsimp only
          simp only [Prod.mk.injEq] at h
          have hfull : emitList f m' j' = ((emitList f m' j').1, EmitOutcome.fin, mf, jf) := by
            rw [← h.2]
          rw [ih g' m' j' (emitList f m' j').1 mf jf (by omega) hfull]
          simp [h.1]
      | eos m' j' =>
          rw [hstep] at h
          have hg : emitNext (g' + 1) m j = EmitStep.eos m' j' := by
            rw [emitNext_mono (f + 1) (g' + 1) m j (by omega) (by rw [hstep]; simp), hstep]
          rw [hg]
          exact h
      | fail => rw [hstep] at h; simp at h
      | blocked => rw [hstep] at h; simp at h

/-- Prepend a record step to an emission run. -/
theorem emits_cons {m : RequestMeta} {j : Journal} {e : Entry} {m' : RequestMeta}
    {j' : Journal} {l : List Entry} {mf : RequestMeta} {jf : Journal}
    (hs : StepRec m j e m' j') (he : Emits m' j' l mf jf) :
    Emits m j (e :: l) mf jf := by
  obtain ⟨f1, h1⟩ := hs
  obtain ⟨f2, h2⟩ := he
  refine ⟨max f1 f2 + 1, ?_⟩
  have hstep : emitNext (max f1 f2 + 1) m j = EmitStep.record e m' j' := by
    rw [emitNext_mono f1 (max f1 f2 + 1) m j (by omega) (by rw [h1]; simp), h1]
  simp only [emitList, hstep]
  rw [emitList_fin_mono f2 (max f1 f2) m' j' l mf jf (by omega) h2]

/-- An emission run from a state whose next turn produces a record must
begin with that record. -/
theorem emits_destruct_rec {m : RequestMeta} {j : Journal} {e : Entry}
    {m' : RequestMeta} {j' : Journal} {L : List Entry} {mf : RequestMeta} {jf : Journal}
    (hs : StepRec m j e m' j') (hE : Emits m j L mf jf) :
    ∃ l, L = e :: l ∧ Emits m' j' l mf jf := by
  obtain ⟨f1, h1⟩ := hs
  obtain ⟨f2, h2⟩ := hE
  match f2, h2 with
  | 0, h2 => simp [emitList] at h2
  | g + 1, h2 =>
      simp only [emitList] at h2
      cases hstep : emitNext (g + 1) m j with
      | record e2 m2 j2 =>
          rw [hstep] at h2
          have hdet : EmitStep.record e2 m2 j2 = EmitStep.record e m' j' :=
            emitNext_det hstep h1 (by simp) (by simp)
          injection hdet with he2 hm2 hj2
          rw [he2, hm2, hj2] at h2
          simp only [Prod.mk.injEq] at h2
          refine ⟨(emitList g m' j').1, h2.1.symm, g, ?_⟩
          rw [← h2.2]
      | eos m2 j2 =>
          have hdet := emitNext_det hstep h1 (by simp) (by simp)
          simp at hdet
      | fail => rw [hstep] at h2; simp at h2
      | blocked => rw [hstep] at h2; simp at h2

/-- An emission run from a state whose next turn ends the stream is
empty. -/
theorem emits_destruct_eos {m : RequestMeta} {j : Journal} {m' : RequestMeta}
    {j' : Journal} {L : List Entry} {mf : RequestMeta} {jf : Journal}
    (hs : StepEos m j m' j') (hE : Emits m j L mf jf) :
    L = [] ∧ mf = m' ∧ jf = j' := by
  obtain ⟨f1, h1⟩ := hs
  obtain ⟨f2, h2⟩ := hE
  match f2, h2 with
  | 0, h2 => simp [emitList] at h2
  | g + 1, h2 =>
      simp only [emitList] at h2
      cases hstep : emitNext (g + 1) m j with
      | record e2 m2 j2 =>
          have hdet := emitNext_det hstep h1 (by simp) (by simp)
          simp at hdet
      | eos m2 j2 =>
          have hdet := emitNext_det hstep h1 (by simp) (by simp)
          injection hdet with hm2 hj2
          rw [hstep] at h2
          rw [hm2, hj2] at h2
          simp only [Prod.mk.injEq] at h2
          exact ⟨h2.1.symm, h2.2.2.1.symm, h2.2.2.2.symm⟩
      | fail => rw [hstep] at h2; simp at h2
      | blocked => rw [hstep] at h2; simp at h2

/-- Peeling a chain of record turns off the front of an emission run. -/
theorem emits_chain_decompose : ∀ {m : RequestMeta} {j : Journal} {l1 : List Entry}
    {mk : RequestMeta} {jk : Journal}, EmitChain m j l1 mk jk →
    ∀ {L : List Entry} {mf : RequestMeta} {jf : Journal}, Emits m j L mf jf →
    ∃ l2, L = l1 ++ l2 ∧ Emits mk jk l2 mf jf := by
  intro m j l1 mk jk hch
  induction hch with
  | nil m j => intro L mf jf hE; exact ⟨L, by simp, hE⟩
  | cons m j e m' j' l m'' j'' hs _ ih =>
      intro L mf jf hE
      obtain ⟨l2, rfl, hE'⟩ := emits_destruct_rec hs hE
      obtain ⟨l3, rfl, hE''⟩ := ih hE'
      exact ⟨l3, by simp, hE''⟩

/-- The serve step of the pump under the spill invariant: a successful
read of min(size - pos, max) bytes from the spill buffer. -/
theorem serveChunk_spec {m : RequestMeta} {lpos max : Nat} (hInv : SpillInv m)
    (hlt : lpos < m.size) :
    serveChunk m lpos max =
      PumpResult.chunk (((m.tmp.getD []).drop lpos).take (min (m.size - lpos) max)) := by
  have hlen : ((m.tmp.getD []).drop lpos).length = m.size - lpos := by
    simp only [SpillInv] at hInv
    simp [hInv]
  have hn : (((m.tmp.getD []).drop lpos).take (min (m.size - lpos) max)).length
      = min (m.size - lpos) max := by
    simp only [List.length_take, hlen]
    omega
  simp [serveChunk, hn]

/-- What one pump call that returned bytes did: it ran a chain of record
turns, each consuming the whole spill record, and then served a prefix
of the new current record; the bytes already behind the local position
plus the records the chain serialized form exactly the stream bytes not
yet served. -/
theorem entriesLoop_chunk_spec : ∀ (lf : Nat) (m : RequestMeta) (j : Journal)
    (lpos max : Nat) (bs : List Char) (m' : RequestMeta) (j' : Journal),
    SpillInv m → lpos ≤ m.size → 1 ≤ max →
    entriesLoop lf m j lpos max = (PumpResult.chunk bs, m', j') →
    ∃ l1 lpos',
      EmitChain m j l1 m' j' ∧
      SpillInv m' ∧
      lpos' < m'.size ∧
      m'.delta + lpos' = m.delta + lpos ∧
      bs = ((m'.tmp.getD []).drop lpos').take (min (m'.size - lpos') max) ∧
      (m.tmp.getD []).drop lpos ++ (l1.map Entry.data).flatten
        = (m'.tmp.getD []).drop lpos' := by
  intro lf
  induction lf with
  | zero => intro m j lpos max bs m' j' _ _ _ h; simp [entriesLoop] at h
  | succ lf ih =>
      intro m j lpos max bs m' j' hInv hle hmax h
      simp only [entriesLoop] at h
      by_cases hlt : lpos < m.size
      · rw [if_pos hlt] at h
        rw [serveChunk_spec hInv hlt] at h
        simp only [Prod.mk.injEq, PumpResult.chunk.injEq] at h
        obtain ⟨hbs, hm, hj⟩ := h
        refine ⟨[], lpos, ?_, ?_, ?_, ?_, ?_, ?_⟩
        · rw [← hm, ← hj]; exact EmitChain.nil m j
        · rw [← hm]; exact hInv
        · rw [← hm]; exact hlt
        · rw [← hm]
        · rw [← hm]; exact hbs.symm
        · rw [← hm]; simp
      · rw [if_neg hlt] at h
        have hlpos : lpos = m.size := by omega
        cases hstep : emitNext (lf + 1) m j with
        | record e m1 j1 =>
            rw [hstep] at h
            have hrec := emitNext_record_state _ _ _ _ _ _ hstep
            have hInv1 : SpillInv m1 := by
              rw [hrec.1]
              simp [SpillInv, recordUpdate]
            have hle1 : lpos - m.size ≤ m1.size := by omega
            obtain ⟨l1, lpos', hch, hInv', hlt', hpos, hbs, hledger⟩ :=
              ih m1 j1 (lpos - m.size) max bs m' j' hInv1 hle1 hmax h
            refine ⟨e :: l1, lpos',
              EmitChain.cons _ _ _ _ _ _ _ _ ⟨lf + 1, hstep⟩ hch, hInv', hlt', ?_, hbs, ?_⟩
            · rw [hpos, hrec.1]
              simp only [recordUpdate]
              omega
            · have hrest : (m.tmp.getD []).drop lpos = [] := by
                apply List.drop_eq_nil_of_le
                simp only [SpillInv] at hInv
                omega
              rw [hrest]
              simp only [List.map_cons, List.flatten_cons, List.nil_append]
              rw [← hledger, hrec.1]
              simp [recordUpdate, hlpos]
        | eos m1 j1 => rw [hstep] at h; simp at h
        | fail => rw [hstep] at h; simp at h
        | blocked => rw [hstep] at h; simp at h

/-- What one pump call that ended the stream did: a chain of record
turns all of size zero (nothing left to serve) followed by an
end-of-stream turn. -/
theorem entriesLoop_eos_spec : ∀ (lf : Nat) (m : RequestMeta) (j : Journal)
    (lpos max : Nat) (m' : RequestMeta) (j' : Journal),
    SpillInv m → lpos ≤ m.size → 1 ≤ max →
    entriesLoop lf m j lpos max = (PumpResult.eos, m', j') →
    ∃ l1 mk jk,
      EmitChain m j l1 mk jk ∧
      (l1.map Entry.data).flatten = [] ∧
      (m.tmp.getD []).drop lpos = [] ∧
      StepEos mk jk m' j' := by
  intro lf
  induction lf with
  | zero => intro m j lpos max m' j' _ _ _ h; simp [entriesLoop] at h
  | succ lf ih =>
      intro m j lpos max m' j' hInv hle hmax h
      simp only [entriesLoop] at h
      by_cases hlt : lpos < m.size
      · rw [if_pos hlt] at h
        rw [serveChunk_spec hInv hlt] at h
        simp at h
      · rw [if_neg hlt] at h
        have hlpos : lpos = m.size := by omega
        have hrest : (m.tmp.getD []).drop lpos = [] := by
          apply List.drop_eq_nil_of_le
          simp only [SpillInv] at hInv
          omega
        cases hstep : emitNext (lf + 1) m j with
        | record e m1 j1 =>
            rw [hstep] at h
            have hrec := emitNext_record_state _ _ _ _ _ _ hstep
            have hInv1 : SpillInv m1 := by
              rw [hrec.1]
              simp [SpillInv, recordUpdate]
            have hle1 : lpos - m.size ≤ m1.size := by omega
            obtain ⟨l1, mk, jk, hch, hflat, hrest1, hstepE⟩ :=
              ih m1 j1 (lpos - m.size) max m' j' hInv1 hle1 hmax h
            have hedata : e.data = [] := by
              have : (m1.tmp.getD []).drop (lpos - m.size) = e.data := by
                rw [hrec.1]
                simp [recordUpdate, hlpos]
              rw [this] at hrest1
              exact hrest1
            refine ⟨e :: l1, mk, jk,
              EmitChain.cons _ _ _ _ _ _ _ _ ⟨lf + 1, hstep⟩ hch, ?_, hrest, hstepE⟩
            simp [hedata, hflat]
        | eos m1 j1 =>
            rw [hstep] at h
            simp only [Prod.mk.injEq] at h
            refine ⟨[], m, j, EmitChain.nil m j, by simp, hrest, lf + 1, ?_⟩
            rw [hstep, h.2.1, h.2.2]
        | fail => rw [hstep] at h; simp at h
        | blocked => rw [hstep] at h; simp at h

/-- The central streaming theorem: when the HTTP runtime pulls the
entries pump with contiguous offsets and the stream reaches its normal
end, the bytes delivered are exactly the unserved rest of the current
spill record followed by the serialized records the pump emits, in
emission order, with nothing reordered, duplicated or dropped. -/
theorem drainEntries_spec : ∀ (df lf : Nat) (m : RequestMeta) (j : Journal)
    (lpos max : Nat) (L : List Entry) (mf : RequestMeta) (jf : Journal)
    (bytes : List Char) (m2 : RequestMeta) (j2 : Journal),
    SpillInv m → lpos ≤ m.size → 1 ≤ max →
    Emits m j L mf jf →
    drainEntries df lf m j (m.delta + lpos) max = (bytes, DrainOutcome.eos, m2, j2) →
    bytes = (m.tmp.getD []).drop lpos ++ (L.map Entry.data).flatten := by
  intro df
  induction df with
  | zero =>
      intro lf m j lpos max L mf jf bytes m2 j2 _ _ _ _ h
      simp [drainEntries] at h
  | succ df ih =>
      intro lf m j lpos max L mf jf bytes m2 j2 hInv hle hmax hEm h
      simp only [drainEntries] at h
      have hrr : request_reader_entries lf m j (m.delta + lpos) max
          = entriesLoop lf m j lpos max := by
        simp [request_reader_entries, Nat.add_sub_cancel_left]
      rw [hrr] at h
      cases hloop : entriesLoop lf m j lpos max with
      | mk r p =>
          cases p with
          | mk mc jc =>
              rw [hloop] at h
              cases r with
              | chunk bs1 =>
                  obtain ⟨l1, lpos', hch, hInv', hlt', hpos, hbs, hledger⟩ :=
                    entriesLoop_chunk_spec lf m j lpos max bs1 mc jc hInv hle hmax hloop
                  obtain ⟨l2, rfl, hEm'⟩ := emits_chain_decompose hch hEm
                  simp only [Prod.mk.injEq] at h
                  have hbslen : bs1.length = min (mc.size - lpos') max := by
                    rw [hbs]
                    simp only [List.length_take, List.length_drop]
                    simp only [SpillInv] at hInv'
                    omega
                  have hle2 : lpos' + bs1.length ≤ mc.size := by omega
                  have hdr : drainEntries df lf mc jc (mc.delta + (lpos' + bs1.length)) max
                      = ((drainEntries df lf mc jc (m.delta + lpos + bs1.length) max).1,
                          DrainOutcome.eos, m2, j2) := by
                    have harg : mc.delta + (lpos' + bs1.length) = m.delta + lpos + bs1.length := by
                      omega
                    rw [harg, ← h.2]
                  have hrest := ih lf mc jc (lpos' + bs1.length) max l2 mf jf _ m2 j2
                    hInv' hle2 hmax hEm' hdr
                  rw [← h.1, hrest]
                  have hsplit : (mc.tmp.getD []).drop lpos'
                      = bs1 ++ (mc.tmp.getD []).drop (lpos' + bs1.length) := by
                    conv_lhs => rw [← List.take_append_drop bs1.length ((mc.tmp.getD []).drop lpos')]
                    congr 1
                    · rw [hbslen, hbs]
                    · rw [List.drop_drop]
                  rw [← List.append_assoc, ← hsplit, ← hledger]
                  simp
              | eos =>
                  obtain ⟨l1, mk, jk, hch, hflat, hrest, hstepE⟩ :=
                    entriesLoop_eos_spec lf m j lpos max mc jc hInv hle hmax hloop
                  obtain ⟨l2, rfl, hEm'⟩ := emits_chain_decompose hch hEm
                  obtain ⟨rfl, _, _⟩ := emits_destruct_eos hstepE hEm'
                  simp only [Prod.mk.injEq] at h
                  rw [← h.1, hrest]
                  simp [hflat]
              | err => simp at h
              | blocked => simp at h

/-- With a zero skip the advance of the pump is a single forward step. -/
theorem advanceJournal_zero {m : RequestMeta} {j : Journal} (h0 : m.n_skip = 0) :
    advanceJournal m j = journalNext j := by
  simp [advanceJournal, h0]

/-- A journal with nothing left forward refuses a next step and stays
put. -/
theorem journalNext_of_fwd_nil {j : Journal} (h : fwdRemaining j = []) :
    journalNext j = (0, j) := by
  obtain ⟨es, loc, pend, ml, un, ui⟩ := j
  cases loc with
  | head =>
      simp only [fwdRemaining] at h
      simp [journalNext, h]
  | posAt i =>
      simp only [fwdRemaining] at h
      have := List.drop_eq_nil_iff.mp h
      simp only [journalNext]
      rw [if_neg]
      omega
  | tail => simp [journalNext]
  | seekCur c =>
      simp only [fwdRemaining] at h
      cases hf : findFirst (fun e => e.cursor = c) es with
      | some i =>
          simp only [hf] at h
          have hb := findFirst_bound hf
          have := List.drop_eq_nil_iff.mp h
          simp only [List.length_cons] at hb
          omega
      | none =>
          simp only [hf] at h
          simp only [journalNext]
          rw [hf]
          simp [h]

/-- A journal with entries left forward takes a next step onto the first
of them. -/
theorem journalNext_of_fwd_cons {j : Journal} {e : Entry} {rest : List Entry}
    (h : fwdRemaining j = e :: rest) :
    ∃ i, journalNext j = (1, { j with loc := Loc.posAt i }) ∧
      j.entries[i]? = some e ∧
      fwdRemaining { j with loc := Loc.posAt i } = rest := by
  obtain ⟨es, loc, pend, ml, un, ui⟩ := j
  cases loc with
  | head =>
      simp only [fwdRemaining] at h
      refine ⟨0, ?_, ?_, ?_⟩
      · simp [journalNext, h]
      · simp [h]
      · simp only [fwdRemaining]
        simp [h]
  | posAt i0 =>
      simp only [fwdRemaining] at h
      have hlen : i0 + 1 < es.length := by
        by_contra hc
        rw [List.drop_eq_nil_iff.mpr (by omega)] at h
        simp at h
      refine ⟨i0 + 1, ?_, ?_, ?_⟩
      · simp [journalNext, hlen]
      · have := List.getElem?_drop es (i0 + 1) 0
        rw [h] at this
        simpa using this.symm
      · simp only [fwdRemaining]
        have : es.drop (i0 + 1 + 1) = (es.drop (i0 + 1)).drop 1 := by
          rw [List.drop_drop]
        rw [this, h]
        simp
  | tail => simp only [fwdRemaining] at h; simp at h
  | seekCur c =>
      simp only [fwdRemaining] at h
      cases hf : findFirst (fun e => e.cursor = c) es with
      | some i =>
          simp only [hf] at h
          refine ⟨i, ?_, ?_, ?_⟩
          · simp [journalNext, hf]
          · have := List.getElem?_drop es i 0
            rw [h] at this
            simpa using this.symm
          · simp only [fwdRemaining]
            have : es.drop (i + 1) = (es.drop i).drop 1 := by
              rw [List.drop_drop]
            rw [this, h]
            simp
      | none =>
          simp only [hf] at h
          refine ⟨0, ?_, ?_, ?_⟩
          · simp only [journalNext]
            rw [hf]
            simp [h]
          · simp [h]
          · simp only [fwdRemaining]
            simp [h]

/-- One serialization turn that hits the entry cap. -/
theorem emitNext_one_eos_cap {m : RequestMeta} {j : Journal}
    (hset : m.n_entries_set = true) (hn : m.n_entries = 0) :
    emitNext 1 m j = EmitStep.eos m j := by
  simp [emitNext, hset, hn]

/-- One serialization turn that exhausts the journal without follow
mode. -/
theorem emitNext_one_eos_exhaust {m : RequestMeta} {j j1 : Journal}
    (hcap : ¬(m.n_entries_set = true ∧ m.n_entries = 0))
    (hadv : advanceJournal m j = (0, j1)) (hf : m.follow = false) :
    emitNext 1 m j = EmitStep.eos m j1 := by
  simp [emitNext, if_neg hcap, hadv, hf]

/-- One serialization turn that lands on an entry and serializes it in
non-discrete mode. -/
theorem emitNext_one_record {m : RequestMeta} {j j1 : Journal} {e : Entry}
    (hcap : ¬(m.n_entries_set = true ∧ m.n_entries = 0))
    (hadv : advanceJournal m j = (1, j1))
    (hcur : journalCurrentEntry j1 = some e) (hd : m.discrete = false) :
    emitNext 1 m j = EmitStep.record e (recordUpdate m e) j1 := by
  simp [emitNext, if_neg hcap, hadv, hcur, hd]

/-- One serialization turn in discrete mode whose cursor test matches. -/
theorem emitNext_one_record_discrete {m : RequestMeta} {j j1 : Journal} {e : Entry}
    {c : String} (hcap : ¬(m.n_entries_set = true ∧ m.n_entries = 0))
    (hadv : advanceJournal m j = (1, j1))
    (hcur : journalCurrentEntry j1 = some e) (hd : m.discrete = true)
    (hc : m.cursor = some c) (hmatch : e.cursor = c) :
    emitNext 1 m j = EmitStep.record e (recordUpdate m e) j1 := by
  simp [emitNext, if_neg hcap, hadv, hcur, hd, hc, journalTestCursor, hmatch]

/-- One serialization turn in discrete mode whose cursor test does not
match: the stream ends. -/
theorem emitNext_one_eos_discrete {m : RequestMeta} {j j1 : Journal} {e : Entry}
    {c : String} (hcap : ¬(m.n_entries_set = true ∧ m.n_entries = 0))
    (hadv : advanceJournal m j = (1, j1))
    (hcur : journalCurrentEntry j1 = some e) (hd : m.discrete = true)
    (hc : m.cursor = some c) (hmatch : e.cursor ≠ c) :
    emitNext 1 m j = EmitStep.eos m j1 := by
  simp [emitNext, if_neg hcap, hadv, hcur, hd, hc, journalTestCursor, hmatch]

/-- An end-of-stream turn yields an empty emission run. -/
theorem emits_nil_of_eos {m : RequestMeta} {j : Journal} {m' : RequestMeta}
    {j' : Journal} (h : emitNext 1 m j = EmitStep.eos m' j') :
    Emits m j [] m' j' :=
  ⟨1, by simp [emitList, h]⟩

/-- Forward emission: with a zero skip and neither follow nor discrete
mode, the pump emits exactly the forward remainder of the journal,
truncated to the entry cap when one is set. -/
theorem emits_fwd : ∀ (rem : List Entry) (m : RequestMeta) (j : Journal),
    m.n_skip = 0 → m.follow = false → m.discrete = false →
    fwdRemaining j = rem →
    ∃ mf jf, Emits m j (if m.n_entries_set then rem.take m.n_entries else rem) mf jf := by
  intro rem
  induction rem with
  | nil =>
      intro m j h0 hf hd hrem
      by_cases hcap : m.n_entries_set = true ∧ m.n_entries = 0
      · refine ⟨m, j, ?_⟩
        have := emits_nil_of_eos (@emitNext_one_eos_cap m j hcap.1 hcap.2)
        simpa using this
      · refine ⟨m, j, ?_⟩
        have hadv : advanceJournal m j = (0, j) := by
          rw [advanceJournal_zero h0, journalNext_of_fwd_nil hrem]
        have := emits_nil_of_eos (emitNext_one_eos_exhaust hcap hadv hf)
        simpa using this
  | cons e rest ih =>
      intro m j h0 hf hd hrem
      by_cases hcap : m.n_entries_set = true ∧ m.n_entries = 0
      · refine ⟨m, j, ?_⟩
        have := emits_nil_of_eos (@emitNext_one_eos_cap m j hcap.1 hcap.2)
        simp only [hcap.1, if_pos, hcap.2]
        simpa using this
      · obtain ⟨i, hnext, hget, hrem'⟩ := journalNext_of_fwd_cons hrem
        have hadv : advanceJournal m j = (1, { j with loc := Loc.posAt i }) := by
          rw [advanceJournal_zero h0, hnext]
        have hcur : journalCurrentEntry { j with loc := Loc.posAt i } = some e := by
          simp [journalCurrentEntry, hget]
        have hstep := emitNext_one_record hcap hadv hcur hd
        have hm' : (recordUpdate m e).n_skip = 0 ∧ (recordUpdate m e).follow = false ∧
            (recordUpdate m e).discrete = false ∧
            (recordUpdate m e).n_entries_set = m.n_entries_set ∧
            (recordUpdate m e).n_entries
              = (if m.n_entries_set then m.n_entries - 1 else m.n_entries) := by
          simp [recordUpdate, hf, hd]
        obtain ⟨mf, jf, hEm⟩ := ih (recordUpdate m e) { j with loc := Loc.posAt i }
          hm'.1 hm'.2.1 hm'.2.2.1 hrem'
        refine ⟨mf, jf, ?_⟩
        have hcons := emits_cons ⟨1, hstep⟩ hEm
        by_cases hset : m.n_entries_set = true
        · have hne : m.n_entries ≠ 0 := fun hz => hcap ⟨hset, hz⟩
          obtain ⟨c, hc⟩ : ∃ c, m.n_entries = c + 1 := ⟨m.n_entries - 1, by omega⟩
          rw [hm'.2.2.2.1, hset] at hcons
          simp only [hset, if_pos, hm'.2.2.2.2, hc] at hcons ⊢
          simpa using hcons
        · have hsetf : m.n_entries_set = false := by
            cases hsf : m.n_entries_set
            · rfl
            · exact absurd hsf hset
          rw [hm'.2.2.2.1] at hcons
          simp only [hsetf, Bool.false_eq_true, if_false] at hcons ⊢
          exact hcons

/-- Forward bulk movement from an exact position: as many steps as
requested, clamped by the entries remaining ahead. -/
theorem journalNextN_posAt : ∀ (k i : Nat) (es : List Entry) (pend : List (List Entry))
    (ml un : List (List Char)) (ui : Nat),
    journalNextN ⟨es, Loc.posAt i, pend, ml, un, ui⟩ k
      = (min k (es.length - 1 - i),
         ⟨es, Loc.posAt (i + min k (es.length - 1 - i)), pend, ml, un, ui⟩) := by
  intro k
  induction k with
  | zero => intro i es pend ml un ui; simp [journalNextN]
  | succ k ih =>
      intro i es pend ml un ui
      simp only [journalNextN]
      by_cases hlt : i + 1 < es.length
      · have hnext : journalNext ⟨es, Loc.posAt i, pend, ml, un, ui⟩
            = (1, ⟨es, Loc.posAt (i + 1), pend, ml, un, ui⟩) := by
          simp [journalNext, hlt]
        rw [hnext]
        simp only [one_ne_zero, if_false]
        rw [ih (i + 1) es pend ml un ui]
        have h1 : min k (es.length - 1 - (i + 1)) + 1 = min (k + 1) (es.length - 1 - i) := by
          omega
        have h2 : i + 1 + min k (es.length - 1 - (i + 1))
            = i + min (k + 1) (es.length - 1 - i) := by
          omega
        rw [h1, h2]
      · have hnext : journalNext ⟨es, Loc.posAt i, pend, ml, un, ui⟩
            = (0, ⟨es, Loc.posAt i, pend, ml, un, ui⟩) := by
          simp [journalNext, hlt]
        rw [hnext]
        have h1 : min (k + 1) (es.length - 1 - i) = 0 := by omega
        simp [h1]

/-- Backward bulk movement from an exact position: as many steps as
requested, clamped by the position itself. -/
theorem journalPreviousN_posAt : ∀ (k i : Nat) (es : List Entry) (pend : List (List Entry))
    (ml un : List (List Char)) (ui : Nat),
    journalPreviousN ⟨es, Loc.posAt i, pend, ml, un, ui⟩ k
      = (min k i, ⟨es, Loc.posAt (i - min k i), pend, ml, un, ui⟩) := by
  intro k
  induction k with
  | zero => intro i es pend ml un ui; simp [journalPreviousN]
  | succ k ih =>
      intro i es pend ml un ui
      simp only [journalPreviousN]
      by_cases hz : i = 0
      · have hprev : journalPrevious ⟨es, Loc.posAt i, pend, ml, un, ui⟩
            = (0, ⟨es, Loc.posAt i, pend, ml, un, ui⟩) := by
          simp [journalPrevious, hz]
        rw [hprev]
        simp [hz]
      · have hprev : journalPrevious ⟨es, Loc.posAt i, pend, ml, un, ui⟩
            = (1, ⟨es, Loc.posAt (i - 1), pend, ml, un, ui⟩) := by
          simp [journalPrevious, hz]
        rw [hprev]
        simp only [one_ne_zero, if_false]
        rw [ih (i - 1) es pend ml un ui]
        have h1 : min k (i - 1) + 1 = min (k + 1) i := by omega
        have h2 : i - 1 - min k (i - 1) = i - min (k + 1) i := by omega
        rw [h1, h2]

/-- Backward bulk movement from the tail of a nonempty journal: the
first step realizes on the newest entry, later steps walk backwards. -/
theorem journalPreviousN_tail : ∀ (k : Nat) (es : List Entry) (pend : List (List Entry))
    (ml un : List (List Char)) (ui : Nat), es ≠ [] → 1 ≤ k →
    journalPreviousN ⟨es, Loc.tail, pend, ml, un, ui⟩ k
      = (min k es.length,
         ⟨es, Loc.posAt (es.length - min k es.length), pend, ml, un, ui⟩) := by
  intro k es pend ml un ui hne hk
  obtain ⟨k', rfl⟩ : ∃ k', k = k' + 1 := ⟨k - 1, by omega⟩
  have hlen : 1 ≤ es.length := by
    cases es
    · exact absurd rfl hne
    · simp
  simp only [journalPreviousN]
  have hprev : journalPrevious ⟨es, Loc.tail, pend, ml, un, ui⟩
      = (1, ⟨es, Loc.posAt (es.length - 1), pend, ml, un, ui⟩) := by
    simp only [journalPrevious]
    rw [if_neg]
    simp [List.isEmpty_iff, hne]
  rw [hprev]
  simp only [one_ne_zero, if_false]
  rw [journalPreviousN_posAt k' (es.length - 1) es pend ml un ui]
  have h1 : min k' (es.length - 1) + 1 = min (k' + 1) es.length := by omega
  have h2 : es.length - 1 - min k' (es.length - 1)
      = es.length - min (k' + 1) es.length := by omega
  rw [h1, h2]

/-- In follow mode an end-of-stream turn can only come from the entry
cap or from a discrete cursor mismatch, never from journal
exhaustion. -/
theorem emitNext_eos_follow : ∀ (f : Nat) (m : RequestMeta) (j : Journal)
    (m' : RequestMeta) (j' : Journal), m.follow = true →
    emitNext f m j = EmitStep.eos m' j' →
    (m'.n_entries_set = true ∧ m'.n_entries = 0) ∨
    (m'.discrete = true ∧ ∃ c, m'.cursor = some c ∧ journalTestCursor j' c = 0) := by
  intro f
  induction f with
  | zero => intro m j m' j' _ h; simp [emitNext] at h
  | succ f ih =>
      intro m j m' j' hfol h
      simp only [emitNext] at h
      by_cases h1 : m.n_entries_set = true ∧ m.n_entries = 0
      · simp only [if_pos h1] at h
        injection h with hm hj
        left
        rw [← hm]
        exact h1
      · simp only [if_neg h1] at h
        by_cases h2 : (advanceJournal m j).1 = 0
        · simp only [if_pos h2, hfol, if_pos] at h
          cases hp : (advanceJournal m j).2.pending with
          | nil => simp only [hp] at h; simp at h
          | cons b rest =>
              simp only [hp] at h
              exact ih _ _ _ _ hfol h
        · simp only [if_neg h2] at h
          cases hce : journalCurrentEntry (advanceJournal m j).2 with
          | none => simp only [hce] at h; simp at h
          | some e0 =>
              simp only [hce] at h
              by_cases hd : m.discrete = true
              · simp only [if_pos hd] at h
                cases hc : m.cursor with
                | none => simp only [hc] at h; simp at h
                | some c =>
                    simp only [hc] at h
                    by_cases ht1 : journalTestCursor (advanceJournal m j).2 c < 0
                    · simp only [if_pos ht1] at h; simp at h
                    · simp only [if_neg ht1] at h
                      by_cases ht2 : journalTestCursor (advanceJournal m j).2 c = 0
                      · simp only [if_pos ht2] at h
                        injection h with hm hj
                        right
                        rw [← hm, ← hj]
                        exact ⟨hd, c, hc, ht2⟩
                      · simp only [if_neg ht2] at h; simp at h
              · simp only [if_neg hd] at h; simp at h

/-- A record turn does not change the mode flags of the request. -/
theorem stepRec_flags {m : RequestMeta} {j : Journal} {e : Entry}
    {m' : RequestMeta} {j' : Journal} (h : StepRec m j e m' j') :
    m'.follow = m.follow ∧ m'.discrete = m.discrete ∧ m'.n_skip = 0 ∧
      m'.n_entries_set = m.n_entries_set := by
  obtain ⟨f, hf⟩ := h
  have := emitNext_record_state _ _ _ _ _ _ hf
  rw [this.1]
  simp [recordUpdate]

/-- A chain of record turns does not change the mode flags. -/
theorem emitChain_flags : ∀ {m : RequestMeta} {j : Journal} {l : List Entry}
    {mk : RequestMeta} {jk : Journal}, EmitChain m j l mk jk →
    mk.follow = m.follow ∧ mk.discrete = m.discrete := by
  intro m j l mk jk h
  induction h with
  | nil m j => exact ⟨rfl, rfl⟩
  | cons m j e m' j' l m'' j'' hs _ ih =>
      have hf := stepRec_flags hs
      exact ⟨ih.1.trans hf.1, ih.2.trans hf.2.1⟩

/-- Discrete emission with a matching cursor: exactly the named record
is emitted and the cap then ends the stream. -/
theorem emits_discrete_match {m : RequestMeta} {es : List Entry} {c : String}
    {i : Nat} {e : Entry} (pend : List (List Entry)) (ml un : List (List Char)) (ui : Nat)
    (hd : m.discrete = true) (hc : m.cursor = some c) (h0 : m.n_skip = 0)
    (hset : m.n_entries_set = true) (hn : m.n_entries = 1)
    (hfind : findFirst (fun e => e.cursor = c) es = some i)
    (hget : es[i]? = some e) :
    ∃ jf, Emits m ⟨es, Loc.seekCur c, pend, ml, un, ui⟩ [e] (recordUpdate m e) jf ∧
      (recordUpdate m e).n_entries = 0 := by
  have hcap : ¬(m.n_entries_set = true ∧ m.n_entries = 0) := by
    intro hx
    omega
  have hadv : advanceJournal m ⟨es, Loc.seekCur c, pend, ml, un, ui⟩
      = (1, ⟨es, Loc.posAt i, pend, ml, un, ui⟩) := by
    rw [advanceJournal_zero h0]
    simp [journalNext, hfind]
  have hcur : journalCurrentEntry ⟨es, Loc.posAt i, pend, ml, un, ui⟩ = some e := by
    simp [journalCurrentEntry, hget]
  have hmatch : e.cursor = c := by
    obtain ⟨x, hx, hpx⟩ := findFirst_get hfind
    rw [hget] at hx
    injection hx with hx
    rw [← hx] at hpx
    exact of_decide_eq_true hpx
  have hstep := emitNext_one_record_discrete hcap hadv hcur hd hc hmatch
  have hn0 : (recordUpdate m e).n_entries = 0 := by
    simp [recordUpdate, hset, hn]
  have heos : emitNext 1 (recordUpdate m e) ⟨es, Loc.posAt i, pend, ml, un, ui⟩
      = EmitStep.eos (recordUpdate m e) ⟨es, Loc.posAt i, pend, ml, un, ui⟩ :=
    emitNext_one_eos_cap (by simp [recordUpdate, hset]) hn0
  refine ⟨⟨es, Loc.posAt i, pend, ml, un, ui⟩, ?_, hn0⟩
  exact emits_cons ⟨1, hstep⟩ (emits_nil_of_eos heos)

/-- Discrete emission whose cursor test fails on a journal that does not
contain the cursor: nothing is emitted and the stream ends. -/
theorem emits_discrete_mismatch {m : RequestMeta} {es : List Entry} {c : String}
    (pend : List (List Entry)) (ml un : List (List Char)) (ui : Nat)
    (hd : m.discrete = true) (hc : m.cursor = some c) (h0 : m.n_skip = 0)
    (hset : m.n_entries_set = true) (hn : m.n_entries = 1)
    (hfind : findFirst (fun e => e.cursor = c) es = none) (hne : es ≠ []) :
    ∃ jf, Emits m ⟨es, Loc.seekCur c, pend, ml, un, ui⟩ [] m jf := by
  have hcap : ¬(m.n_entries_set = true ∧ m.n_entries = 0) := by
    intro hx
    omega
  obtain ⟨e0, rest, rfl⟩ : ∃ e0 rest, es = e0 :: rest := by
    cases es
    · exact absurd rfl hne
    · exact ⟨_, _, rfl⟩
  have hadv : advanceJournal m ⟨e0 :: rest, Loc.seekCur c, pend, ml, un, ui⟩
      = (1, ⟨e0 :: rest, Loc.posAt 0, pend, ml, un, ui⟩) := by
    rw [advanceJournal_zero h0]
    simp only [journalNext]
    rw [hfind]
    simp
  have hcur : journalCurrentEntry ⟨e0 :: rest, Loc.posAt 0, pend, ml, un, ui⟩ = some e0 := by
    simp [journalCurrentEntry]
  have hmm : e0.cursor ≠ c := by
    have := findFirst_none hfind e0 (by simp)
    simpa using this
  have hstep := emitNext_one_eos_discrete hcap hadv hcur hd hc hmm
  exact ⟨_, emits_nil_of_eos hstep⟩

/-- Like emitNext_one_record but for an advance that reports more than
one step: the loop only checks the count against zero. -/
theorem emitNext_one_record_r {m : RequestMeta} {j j1 : Journal} {e : Entry} {r : Nat}
    (hcap : ¬(m.n_entries_set = true ∧ m.n_entries = 0))
    (hadv : advanceJournal m j = (r, j1)) (hr : r ≠ 0)
    (hcur : journalCurrentEntry j1 = some e) (hd : m.discrete = false) :
    emitNext 1 m j = EmitStep.record e (recordUpdate m e) j1 := by
  simp [emitNext, if_neg hcap, hadv, hr, hcur, hd]

/-- Backward movement from the tail of an empty journal does nothing. -/
theorem journalPreviousN_tail_nil : ∀ (k : Nat) (pend : List (List Entry))
    (ml un : List (List Char)) (ui : Nat), 1 ≤ k →
    journalPreviousN ⟨[], Loc.tail, pend, ml, un, ui⟩ k
      = (0, ⟨[], Loc.tail, pend, ml, un, ui⟩) := by
  intro k pend ml un ui hk
  obtain ⟨k', rfl⟩ : ∃ k', k = k' + 1 := ⟨k - 1, by omega⟩
  simp [journalPreviousN, journalPrevious]

/-- Emission from a tail seed with a negative skip: the initial advance
realizes min(n_skip-magnitude + 1, N) steps back from the end, and
emission then proceeds forward to the end of the journal. -/
theorem emits_tail_neg (m : RequestMeta) (es : List Entry) (pend : List (List Entry))
    (ml un : List (List Char)) (ui : Nat)
    (hs : m.n_skip < 0) (hf : m.follow = false) (hd : m.discrete = false)
    (hset : m.n_entries_set = false) :
    ∃ mf jf, Emits m ⟨es, Loc.tail, pend, ml, un, ui⟩
      (es.drop (es.length - min ((-m.n_skip).toNat + 1) es.length)) mf jf := by
  have hcap : ¬(m.n_entries_set = true ∧ m.n_entries = 0) := by
    simp [hset]
  by_cases hne : es = []
  · subst hne
    have hadv : advanceJournal m ⟨[], Loc.tail, pend, ml, un, ui⟩
        = (0, ⟨[], Loc.tail, pend, ml, un, ui⟩) := by
      simp only [advanceJournal, if_pos hs]
      rw [journalPreviousSkip, if_neg (by omega)]
      exact journalPreviousN_tail_nil _ pend ml un ui (by omega)
    refine ⟨m, ⟨[], Loc.tail, pend, ml, un, ui⟩, ?_⟩
    have := emits_nil_of_eos (emitNext_one_eos_exhaust hcap hadv hf)
    simpa using this
  · have hlen : 1 ≤ es.length := by
      cases es
      · exact absurd rfl hne
      · simp
    have hadv : advanceJournal m ⟨es, Loc.tail, pend, ml, un, ui⟩
        = (min ((-m.n_skip).toNat + 1) es.length,
           ⟨es, Loc.posAt (es.length - min ((-m.n_skip).toNat + 1) es.length),
            pend, ml, un, ui⟩) := by
      simp only [advanceJournal, if_pos hs]
      rw [journalPreviousSkip, if_neg (by omega)]
      exact journalPreviousN_tail _ es pend ml un ui hne (by omega)
    have hplt : es.length - min ((-m.n_skip).toNat + 1) es.length < es.length := by
      omega
    have hget : es[es.length - min ((-m.n_skip).toNat + 1) es.length]?
        = some (es[es.length - min ((-m.n_skip).toNat + 1) es.length]) :=
      List.getElem?_eq_getElem hplt
    have hcur : journalCurrentEntry
        ⟨es, Loc.posAt (es.length - min ((-m.n_skip).toNat + 1) es.length),
         pend, ml, un, ui⟩
        = some (es[es.length - min ((-m.n_skip).toNat + 1) es.length]) := by
      simp [journalCurrentEntry]
    have hstep := emitNext_one_record_r hcap hadv (by omega) hcur hd
    have hrem : fwdRemaining
        ⟨es, Loc.posAt (es.length - min ((-m.n_skip).toNat + 1) es.length),
         pend, ml, un, ui⟩
        = es.drop (es.length - min ((-m.n_skip).toNat + 1) es.length + 1) := by
      simp [fwdRemaining]
    obtain ⟨mf, jf, hEm⟩ := emits_fwd _ (recordUpdate m
        (es[es.length - min ((-m.n_skip).toNat + 1) es.length])) _
      (by simp [recordUpdate]) (by simp [recordUpdate, hf]) (by simp [recordUpdate, hd]) hrem
    rw [show (recordUpdate m (es[es.length - min ((-m.n_skip).toNat + 1) es.length])).n_entries_set
        = false by simp [recordUpdate, hset]] at hEm
    simp only [Bool.false_eq_true, if_false] at hEm
    refine ⟨mf, jf, ?_⟩
    have hcons := emits_cons ⟨1, hstep⟩ hEm
    rw [List.drop_eq_getElem_cons hplt]
    exact hcons

/-- A record turn of the fields pump performs exactly the fieldUpdate
state change. -/
theorem fieldsEmitNext_record_state {m : RequestMeta} {j : Journal} {bs : List Char}
    {m' : RequestMeta} {j' : Journal}
    (h : fieldsEmitNext m j = FieldStep.record bs m' j') :
    m' = fieldUpdate m bs := by
  simp only [fieldsEmitNext] at h
  by_cases h1 : m.n_fields_set = true ∧ m.n_fields = 0
  · simp only [if_pos h1] at h; simp at h
  · simp only [if_neg h1] at h
    by_cases h2 : (journalEnumerateUnique j).1 = 0
    · simp only [if_pos h2] at h; simp at h
    · simp only [if_neg h2] at h
      cases ho : output_field m.mode (journalEnumerateUnique j).2.1 with
      | none => simp only [ho] at h; simp at h
      | some bs0 =>
          simp only [ho] at h
          injection h with hb hm hj
          rw [← hm, hb]

/-- Extra fuel never changes a fields emission run that ended
normally. -/
theorem fieldsEmitList_fin_mono : ∀ (f g : Nat) (m : RequestMeta) (j : Journal)
    (l : List (List Char)) (mf : RequestMeta) (jf : Journal), f ≤ g →
    fieldsEmitList f m j = (l, EmitOutcome.fin, mf, jf) →
    fieldsEmitList g m j = (l, EmitOutcome.fin, mf, jf) := by
  intro f
  induction f with
  | zero => intro g m j l mf jf _ h; simp [fieldsEmitList] at h
  | succ f ih =>
      intro g m j l mf jf hle h
      obtain ⟨g', rfl⟩ : ∃ g', g = g' + 1 := ⟨g - 1, by omega⟩
      simp only [fieldsEmitList] at h ⊢
      cases hstep : fieldsEmitNext m j with
      | record bs m' j' =>
          rw [hstep] at h
          dsimp only at h ⊢
          simp only [Prod.mk.injEq] at h
          have hfull : fieldsEmitList f m' j'
              = ((fieldsEmitList f m' j').1, EmitOutcome.fin, mf, jf) := by
            rw [← h.2]
          rw [ih g' m' j' (fieldsEmitList f m' j').1 mf jf (by omega) hfull]
          simp [h.1]
      | eos m' j' =>
          rw [hstep] at h
          exact h
      | fail =>
          rw [hstep] at h
          simp at h

/-- Prepend a record turn to a fields emission run. -/
theorem fieldsEmits_cons {m : RequestMeta} {j : Journal} {bs : List Char}
    {m' : RequestMeta} {j' : Journal} {l : List (List Char)} {mf : RequestMeta}
    {jf : Journal} (hs : fieldsEmitNext m j = FieldStep.record bs m' j')
    (he : FieldsEmits m' j' l mf jf) : FieldsEmits m j (bs :: l) mf jf := by
  obtain ⟨f, hf⟩ := he
  refine ⟨f + 1, ?_⟩
  simp only [fieldsEmitList, hs]
  rw [hf]

/-- A fields emission run from a state whose next turn produces a record
must begin with that record. -/
theorem fieldsEmits_destruct_rec {m : RequestMeta} {j : Journal} {bs : List Char}
    {m' : RequestMeta} {j' : Journal} {L : List (List Char)} {mf : RequestMeta}
    {jf : Journal} (hs : fieldsEmitNext m j = FieldStep.record bs m' j')
    (hE : FieldsEmits m j L mf jf) : ∃ l, L = bs :: l ∧ FieldsEmits m' j' l mf jf := by
  obtain ⟨f, hf⟩ := hE
  match f, hf with
  | 0, hf => simp [fieldsEmitList] at hf
  | g + 1, hf =>
      simp only [fieldsEmitList, hs] at hf
      simp only [Prod.mk.injEq] at hf
      refine ⟨(fieldsEmitList g m' j').1, hf.1.symm, g, ?_⟩
      rw [← hf.2]

/-- A fields emission run from a state whose next turn ends the stream
is empty. -/
theorem fieldsEmits_destruct_eos {m : RequestMeta} {j : Journal} {m' : RequestMeta}
    {j' : Journal} {L : List (List Char)} {mf : RequestMeta} {jf : Journal}
    (hs : fieldsEmitNext m j = FieldStep.eos m' j')
    (hE : FieldsEmits m j L mf jf) : L = [] ∧ mf = m' ∧ jf = j' := by
  obtain ⟨f, hf⟩ := hE
  match f, hf with
  | 0, hf => simp [fieldsEmitList] at hf
  | g + 1, hf =>
      simp only [fieldsEmitList, hs] at hf
      simp only [Prod.mk.injEq] at hf
      exact ⟨hf.1.symm, hf.2.2.1.symm, hf.2.2.2.symm⟩

/-- Peeling a chain of record turns off the front of a fields emission
run. -/
theorem fieldsEmits_chain_decompose : ∀ {m : RequestMeta} {j : Journal}
    {l1 : List (List Char)} {mk : RequestMeta} {jk : Journal},
    FieldsChain m j l1 mk jk →
    ∀ {L : List (List Char)} {mf : RequestMeta} {jf : Journal},
    FieldsEmits m j L mf jf →
    ∃ l2, L = l1 ++ l2 ∧ FieldsEmits mk jk l2 mf jf := by
  intro m j l1 mk jk hch
  induction hch with
  | nil m j => intro L mf jf hE; exact ⟨L, by simp, hE⟩
  | cons m j bs m' j' l m'' j'' hs _ ih =>
      intro L mf jf hE
      obtain ⟨l2, rfl, hE'⟩ := fieldsEmits_destruct_rec hs hE
      obtain ⟨l3, rfl, hE''⟩ := ih hE'
      exact ⟨l3, by simp, hE''⟩

/-- What one fields pump call that returned bytes did (mirror of the
entries case). -/
theorem fieldsLoop_chunk_spec : ∀ (lf : Nat) (m : RequestMeta) (j : Journal)
    (lpos max : Nat) (bs : List Char) (m' : RequestMeta) (j' : Journal),
    SpillInv m → lpos ≤ m.size → 1 ≤ max →
    fieldsLoop lf m j lpos max = (PumpResult.chunk bs, m', j') →
    ∃ l1 lpos',
      FieldsChain m j l1 m' j' ∧
      SpillInv m' ∧
      lpos' < m'.size ∧
      m'.delta + lpos' = m.delta + lpos ∧
      bs = ((m'.tmp.getD []).drop lpos').take (min (m'.size - lpos') max) ∧
      (m.tmp.getD []).drop lpos ++ l1.flatten = (m'.tmp.getD []).drop lpos' := by
  intro lf
  induction lf with
  | zero => intro m j lpos max bs m' j' _ _ _ h; simp [fieldsLoop] at h
  | succ lf ih =>
      intro m j lpos max bs m' j' hInv hle hmax h
      simp only [fieldsLoop] at h
      by_cases hlt : lpos < m.size
      · rw [if_pos hlt] at h
        rw [serveChunk_spec hInv hlt] at h
        simp only [Prod.mk.injEq, PumpResult.chunk.injEq] at h
        obtain ⟨hbs, hm, hj⟩ := h
        refine ⟨[], lpos, ?_, ?_, ?_, ?_, ?_, ?_⟩
        · rw [← hm, ← hj]; exact FieldsChain.nil m j
        · rw [← hm]; exact hInv
        · rw [← hm]; exact hlt
        · rw [← hm]
        · rw [← hm]; exact hbs.symm
        · rw [← hm]; simp
      · rw [if_neg hlt] at h
        have hlpos : lpos = m.size := by omega
        cases hstep : fieldsEmitNext m j with
        | record bs1 m1 j1 =>
            rw [hstep] at h
            have hrec := fieldsEmitNext_record_state hstep
            have hInv1 : SpillInv m1 := by
              rw [hrec]
              simp [SpillInv, fieldUpdate]
            have hle1 : lpos - m.size ≤ m1.size := by omega
            obtain ⟨l1, lpos', hch, hInv', hlt', hpos, hbsr, hledger⟩ :=
              ih m1 j1 (lpos - m.size) max bs m' j' hInv1 hle1 hmax h
            refine ⟨bs1 :: l1, lpos',
              FieldsChain.cons _ _ _ _ _ _ _ _ hstep hch, hInv', hlt', ?_, hbsr, ?_⟩
            · rw [hpos, hrec]
              simp only [fieldUpdate]
              omega
            · have hrest : (m.tmp.getD []).drop lpos = [] := by
                apply List.drop_eq_nil_of_le
                simp only [SpillInv] at hInv
                omega
              rw [hrest]
              simp only [List.flatten_cons, List.nil_append]
              rw [← hledger, hrec]
              simp [fieldUpdate, hlpos]
        | eos m1 j1 => rw [hstep] at h; simp at h
        | fail => rw [hstep] at h; simp at h

/-- What one fields pump call that ended the stream did (mirror of the
entries case). -/
theorem fieldsLoop_eos_spec : ∀ (lf : Nat) (m : RequestMeta) (j : Journal)
    (lpos max : Nat) (m' : RequestMeta) (j' : Journal),
    SpillInv m → lpos ≤ m.size → 1 ≤ max →
    fieldsLoop lf m j lpos max = (PumpResult.eos, m', j') →
    ∃ l1 mk jk,
      FieldsChain m j l1 mk jk ∧
      l1.flatten = [] ∧
      (m.tmp.getD []).drop lpos = [] ∧
      fieldsEmitNext mk jk = FieldStep.eos m' j' := by
  intro lf
  induction lf with
  | zero => intro m j lpos max m' j' _ _ _ h; simp [fieldsLoop] at h
  | succ lf ih =>
      intro m j lpos max m' j' hInv hle hmax h
      simp only [fieldsLoop] at h
      by_cases hlt : lpos < m.size
      · rw [if_pos hlt] at h
        rw [serveChunk_spec hInv hlt] at h
        simp at h
      · rw [if_neg hlt] at h
        have hlpos : lpos = m.size := by omega
        have hrest : (m.tmp.getD []).drop lpos = [] := by
          apply List.drop_eq_nil_of_le
          simp only [SpillInv] at hInv
          omega
        cases hstep : fieldsEmitNext m j with
        | record bs1 m1 j1 =>
            rw [hstep] at h
            have hrec := fieldsEmitNext_record_state hstep
            have hInv1 : SpillInv m1 := by
              rw [hrec]
              simp [SpillInv, fieldUpdate]
            have hle1 : lpos - m.size ≤ m1.size := by omega
            obtain ⟨l1, mk, jk, hch, hflat, hrest1, hstepE⟩ :=
              ih m1 j1 (lpos - m.size) max m' j' hInv1 hle1 hmax h
            have hbdata : bs1 = [] := by
              have hx : (m1.tmp.getD []).drop (lpos - m.size) = bs1 := by
                rw [hrec]
                simp [fieldUpdate, hlpos]
              rw [hx] at hrest1
              exact hrest1
            refine ⟨bs1 :: l1, mk, jk,
              FieldsChain.cons _ _ _ _ _ _ _ _ hstep hch, ?_, hrest, hstepE⟩
            simp [hbdata, hflat]
        | eos m1 j1 =>
            rw [hstep] at h
            simp only [Prod.mk.injEq] at h
            refine ⟨[], m, j, FieldsChain.nil m j, by simp, hrest, ?_⟩
            rw [hstep, h.2.1, h.2.2]
        | fail => rw [hstep] at h; simp at h

/-- The streaming theorem for the fields pump: contiguous pulls that
reach the normal end of the stream deliver exactly the rest of the
current spill record followed by the serialized unique values in
enumeration order. -/
theorem drainFields_spec : ∀ (df lf : Nat) (m : RequestMeta) (j : Journal)
    (lpos max : Nat) (L : List (List Char)) (mf : RequestMeta) (jf : Journal)
    (bytes : List Char) (m2 : RequestMeta) (j2 : Journal),
    SpillInv m → lpos ≤ m.size → 1 ≤ max →
    FieldsEmits m j L mf jf →
    drainFields df lf m j (m.delta + lpos) max = (bytes, DrainOutcome.eos, m2, j2) →
    bytes = (m.tmp.getD []).drop lpos ++ L.flatten := by
  intro df
  induction df with
  | zero =>
      intro lf m j lpos max L mf jf bytes m2 j2 _ _ _ _ h
      simp [drainFields] at h
  | succ df ih =>
      intro lf m j lpos max L mf jf bytes m2 j2 hInv hle hmax hEm h
      simp only [drainFields] at h
      have hrr : request_reader_fields lf m j (m.delta + lpos) max
          = fieldsLoop lf m j lpos max := by
        simp [request_reader_fields, Nat.add_sub_cancel_left]
      rw [hrr] at h
      cases hloop : fieldsLoop lf m j lpos max with
      | mk r p =>
          cases p with
          | mk mc jc =>
              rw [hloop] at h
              cases r with
              | chunk bs1 =>
                  obtain ⟨l1, lpos', hch, hInv', hlt', hpos, hbs, hledger⟩ :=
                    fieldsLoop_chunk_spec lf m j lpos max bs1 mc jc hInv hle hmax hloop
                  obtain ⟨l2, rfl, hEm'⟩ := fieldsEmits_chain_decompose hch hEm
                  simp only [Prod.mk.injEq] at h
                  have hbslen : bs1.length = min (mc.size - lpos') max := by
                    rw [hbs]
                    simp only [List.length_take, List.length_drop]
                    simp only [SpillInv] at hInv'
                    omega
                  have hle2 : lpos' + bs1.length ≤ mc.size := by omega
                  have hdr : drainFields df lf mc jc (mc.delta + (lpos' + bs1.length)) max
                      = ((drainFields df lf mc jc (m.delta + lpos + bs1.length) max).1,
                          DrainOutcome.eos, m2, j2) := by
                    have harg : mc.delta + (lpos' + bs1.length)
                        = m.delta + lpos + bs1.length := by
                      omega
                    rw [harg, ← h.2]
                  have hrest := ih lf mc jc (lpos' + bs1.length) max l2 mf jf _ m2 j2
                    hInv' hle2 hmax hEm' hdr
                  rw [← h.1, hrest]
                  have hsplit : (mc.tmp.getD []).drop lpos'
                      = bs1 ++ (mc.tmp.getD []).drop (lpos' + bs1.length) := by
                    conv_lhs =>
                      rw [← List.take_append_drop bs1.length ((mc.tmp.getD []).drop lpos')]
                    congr 1
                    · rw [hbslen, hbs]
                    · rw [List.drop_drop]
                  rw [← List.append_assoc, ← hsplit, ← hledger]
                  simp
              | eos =>
                  obtain ⟨l1, mk, jk, hch, hflat, hrest, hstepE⟩ :=
                    fieldsLoop_eos_spec lf m j lpos max mc jc hInv hle hmax hloop
                  obtain ⟨l2, rfl, hEm'⟩ := fieldsEmits_chain_decompose hch hEm
                  obtain ⟨rfl, _, _⟩ := fieldsEmits_destruct_eos hstepE hEm'
                  simp only [Prod.mk.injEq] at h
                  rw [← h.1, hrest]
                  simp [hflat]
              | err => simp at h
              | blocked => simp at h

/-- With the field cap never set, the fields pump emits one serialized
record per remaining unique value, in enumeration order, and ends the
stream only when the enumeration is exhausted. -/
theorem fields_emits_all : ∀ (rem : List (List Char)) (m : RequestMeta) (j : Journal),
    m.n_fields_set = false →
    j.uniques.drop j.uidx = rem →
    (∀ d ∈ rem, (output_field m.mode d).isSome = true) →
    ∃ mf jf, FieldsEmits m j (rem.map (fun d => (output_field m.mode d).getD [])) mf jf ∧
      mf.n_fields_set = false ∧ mf.mode = m.mode ∧
      j.uniques.length ≤ jf.uidx ∧ jf.uniques = j.uniques := by
  intro rem
  induction rem with
  | nil =>
      intro m j hset hdrop hall
      have hlen : j.uniques.length ≤ j.uidx := List.drop_eq_nil_iff.mp hdrop
      have hnone : j.uniques[j.uidx]? = none := List.getElem?_eq_none hlen
      have hstep : fieldsEmitNext m j = FieldStep.eos m j := by
        simp only [fieldsEmitNext]
        rw [if_neg (by simp [hset])]
        simp [journalEnumerateUnique, hnone]
      exact ⟨m, j, ⟨1, by simp [fieldsEmitList, hstep]⟩, hset, rfl, hlen, rfl⟩
  | cons d rest ih =>
      intro m j hset hdrop hall
      have hget : j.uniques[j.uidx]? = some d := by
        have hx := List.getElem?_drop j.uniques j.uidx 0
        rw [hdrop] at hx
        simpa using hx.symm
      have henum : journalEnumerateUnique j = (1, d, { j with uidx := j.uidx + 1 }) := by
        simp [journalEnumerateUnique, hget]
      obtain ⟨bs, hbs⟩ : ∃ bs, output_field m.mode d = some bs := by
        have hd := hall d (by simp)
        cases ho : output_field m.mode d with
        | none => rw [ho] at hd; simp at hd
        | some x => exact ⟨x, rfl⟩
      have hstep : fieldsEmitNext m j
          = FieldStep.record bs (fieldUpdate m bs) { j with uidx := j.uidx + 1 } := by
        simp only [fieldsEmitNext]
        rw [if_neg (by simp [hset])]
        simp [henum, hbs]
      have hdrop' : ({ j with uidx := j.uidx + 1 } : Journal).uniques.drop
          ({ j with uidx := j.uidx + 1 } : Journal).uidx = rest := by
        have hx : j.uniques.drop (j.uidx + 1) = (j.uniques.drop j.uidx).drop 1 := by
          rw [List.drop_drop]
        simp only
        rw [hx, hdrop]
        simp
      have hmodeU : (fieldUpdate m bs).mode = m.mode := by simp [fieldUpdate]
      have hall' : ∀ d' ∈ rest, (output_field (fieldUpdate m bs).mode d').isSome = true := by
        intro d' hd'
        rw [hmodeU]
        exact hall d' (by simp [hd'])
      obtain ⟨mf, jf, hEm, hset', hmode', hlen', huniq'⟩ :=
        ih (fieldUpdate m bs) { j with uidx := j.uidx + 1 }
          (by simp [fieldUpdate, hset]) hdrop' hall'
      rw [hmodeU] at hEm
      refine ⟨mf, jf, ?_, hset', ?_, ?_, ?_⟩
      · have hc := fieldsEmits_cons hstep hEm
        simpa [hbs] using hc
      · rw [hmode', hmodeU]
      · simpa using hlen'
      · simpa using huniq'

/-- With the field cap never set, a fields end-of-stream turn means the
unique enumeration is exhausted and changes nothing. -/
theorem fieldsEmitNext_eos_exhaust {m : RequestMeta} {j : Journal}
    {m' : RequestMeta} {j' : Journal} (hset : m.n_fields_set = false)
    (h : fieldsEmitNext m j = FieldStep.eos m' j') :
    j.uniques.length ≤ j.uidx ∧ m' = m ∧ j' = j := by
  simp only [fieldsEmitNext] at h
  rw [if_neg (by simp [hset])] at h
  cases hg : j.uniques[j.uidx]? with
  | some d =>
      rw [show journalEnumerateUnique j = (1, d, { j with uidx := j.uidx + 1 }) from by
        simp [journalEnumerateUnique, hg]] at h
      simp only [one_ne_zero, if_false] at h
      cases ho : output_field m.mode d with
      | none => rw [ho] at h; simp at h
      | some bs => rw [ho] at h; simp at h
  | none =>
      rw [show journalEnumerateUnique j = (0, [], j) from by
        simp [journalEnumerateUnique, hg]] at h
      simp only [if_pos] at h
      injection h with hm hj
      exact ⟨List.getElem?_eq_none_iff.mp hg, hm.symm, hj.symm⟩

/-- Accept parsing touches nothing but the output mode. -/
theorem requestParseAccept_preserves (h : Option (List Char)) (m : RequestMeta) :
    (requestParseAccept h m).n_fields_set = m.n_fields_set ∧
    (requestParseAccept h m).n_fields = m.n_fields ∧
    (requestParseAccept h m).cursor = m.cursor ∧
    (requestParseAccept h m).n_skip = m.n_skip ∧
    (requestParseAccept h m).discrete = m.discrete ∧
    (requestParseAccept h m).follow = m.follow := by
  cases h with
  | none => simp [requestParseAccept]
  | some hv =>
      simp only [requestParseAccept]
      by_cases h1 : hv = (mime_types OutputMode.OUTPUT_JSON).toList
      · simp [h1]
      · rw [if_neg h1]
        by_cases h2 : hv = (mime_types OutputMode.OUTPUT_JSON_SSE).toList
        · simp [h2]
        · rw [if_neg h2]
          by_cases h3 : hv = (mime_types OutputMode.OUTPUT_EXPORT).toList
          · simp [h3]
          · rw [if_neg h3]
            simp

/-- The seek of the entries handler never fails in the model. -/
theorem seekEntries_ok (m : RequestMeta) (j : Journal) : (seekEntries m j).1 = 0 := by
  simp only [seekEntries]
  cases m.cursor with
  | none =>
      by_cases h : 0 ≤ m.n_skip
      · simp [h, journalSeekHead]
      · simp [h, journalSeekTail]
  | some c => simp [journalSeekCursor]

/-- Seeding with a cursor seeks to it. -/
theorem seekEntries_cursor {m : RequestMeta} {j : Journal} {c : String}
    (h : m.cursor = some c) :
    seekEntries m j = (0, { j with loc := Loc.seekCur c }) := by
  simp [seekEntries, h, journalSeekCursor]

/-- Seeding without a cursor and a non-negative skip seeks to the
head. -/
theorem seekEntries_head {m : RequestMeta} {j : Journal}
    (h : m.cursor = none) (hs : 0 ≤ m.n_skip) :
    seekEntries m j = (0, { j with loc := Loc.head }) := by
  simp [seekEntries, h, hs, journalSeekHead]

/-- Seeding without a cursor and a negative skip seeks to the tail. -/
theorem seekEntries_tail {m : RequestMeta} {j : Journal}
    (h : m.cursor = none) (hs : m.n_skip < 0) :
    seekEntries m j = (0, { j with loc := Loc.tail }) := by
  have hns : ¬ 0 ≤ m.n_skip := by omega
  simp [seekEntries, h, hns, journalSeekTail]

/-- A list with no first occurrence of the scanned element is all kept
by the complementary takeWhile. -/
theorem findFirst_none_takeWhile {p : α → Bool} : ∀ {l : List α},
    findFirst p l = none → l.takeWhile (fun x => ! p x) = l := by
  intro l
  induction l with
  | nil => intro _; simp
  | cons x xs ih =>
      intro h
      simp only [findFirst] at h
      cases hx : p x with
      | true => simp [hx] at h
      | false =>
          simp only [hx, Bool.false_eq_true, if_false, Option.map_eq_none'] at h
          simp only [List.takeWhile_cons, hx]
          simp [ih h]

/-- The prefix before the first occurrence of the scanned element is the
complementary takeWhile. -/
theorem findFirst_some_takeWhile {p : α → Bool} : ∀ {l : List α} {k : Nat},
    findFirst p l = some k → l.takeWhile (fun x => ! p x) = l.take k := by
  intro l
  induction l with
  | nil => intro k h; simp [findFirst] at h
  | cons x xs ih =>
      intro k h
      simp only [findFirst] at h
      cases hx : p x with
      | true =>
          simp only [hx, if_pos] at h
          injection h with h
          subst h
          simp [List.takeWhile_cons, hx]
      | false =>
          simp only [hx, Bool.false_eq_true, if_false, Option.map_eq_some'] at h
          obtain ⟨a, ha, rfl⟩ := h
          simp only [List.takeWhile_cons, hx]
          simp [ih ha]

/-- startswith holds along a literal prefix. -/
theorem startswith_append : ∀ (p s : List Char), startswith (p ++ s) p = true := by
  intro p
  induction p with
  | nil =>
      intro s
      cases s with
      | nil => rfl
      | cons c cs => rfl
  | cons c cs ih =>
      intro s
      simp only [List.cons_append, startswith]
      simp [ih s]

/-- The cursor field finalizeCursor computes. -/
theorem finalizeCursor_cursor (craw : List Char) (m : RequestMeta) :
    (finalizeCursor craw m).cursor =
      (if craw.takeWhile (fun ch => ! isWS ch) = [] then none
       else some (String.mk (craw.takeWhile (fun ch => ! isWS ch)))) := by
  simp only [finalizeCursor]
  by_cases h : craw.takeWhile (fun ch => ! isWS ch) = []
  · simp [h]
  · simp [h]

/-- C2: on each emission step the entries pump advances the journal by
moving backwards by one more than the skip magnitude when n_skip is
negative, forwards by one more than the skip when it is positive, and
forwards by exactly one when it is zero; and every record emission
resets n_skip to zero, so subsequent records advance by one. -/
theorem c2_advance_and_reset (m : RequestMeta) (es : List Entry)
    (pend : List (List Entry)) (ml un : List (List Char)) (ui i : Nat) :
    (m.n_skip < 0 → (-m.n_skip).toNat + 1 ≤ i →
      advanceJournal m ⟨es, Loc.posAt i, pend, ml, un, ui⟩
        = ((-m.n_skip).toNat + 1,
           ⟨es, Loc.posAt (i - ((-m.n_skip).toNat + 1)), pend, ml, un, ui⟩)) ∧
    (0 < m.n_skip → i + m.n_skip.toNat + 1 < es.length →
      advanceJournal m ⟨es, Loc.posAt i, pend, ml, un, ui⟩
        = (m.n_skip.toNat + 1,
           ⟨es, Loc.posAt (i + (m.n_skip.toNat + 1)), pend, ml, un, ui⟩)) ∧
    (m.n_skip = 0 → i + 1 < es.length →
      advanceJournal m ⟨es, Loc.posAt i, pend, ml, un, ui⟩
        = (1, ⟨es, Loc.posAt (i + 1), pend, ml, un, ui⟩)) ∧
    (∀ (f : Nat) (j : Journal) (e : Entry) (m' : RequestMeta) (j' : Journal),
      emitNext f m j = EmitStep.record e m' j' → m'.n_skip = 0) := by
  refine ⟨?_, ?_, ?_, ?_⟩
  · intro hs hle
    simp only [advanceJournal, if_pos hs]
    rw [journalPreviousSkip, if_neg (by omega)]
    rw [journalPreviousN_posAt]
    have h1 : min ((-m.n_skip).toNat + 1) i = (-m.n_skip).toNat + 1 := by omega
    rw [h1]
  · intro hs hlt
    have hneg : ¬ m.n_skip < 0 := by omega
    simp only [advanceJournal, if_neg hneg, if_pos hs]
    rw [journalNextSkip, if_neg (by omega)]
    rw [journalNextN_posAt]
    have h1 : min (m.n_skip.toNat + 1) (es.length - 1 - i) = m.n_skip.toNat + 1 := by
      omega
    rw [h1]
  · intro hs hlt
    rw [advanceJournal_zero hs]
    simp [journalNext, hlt]
  · intro f j e m' j' h
    have := emitNext_record_state f m j e m' j' h
    rw [this.1]
    simp [recordUpdate]

/-- Witness for C2 at concrete inputs: a skip of -1 moves two records
back from position 2, a skip of 1 moves two forward from position 0, a
zero skip moves one forward, and a record emission resets n_skip. -/
theorem c2_advance_and_reset_witness :
    advanceJournal { freshMeta with n_skip := -1 } ⟨c5Entries, Loc.posAt 2, [], [], [], 0⟩
      = (2, ⟨c5Entries, Loc.posAt 0, [], [], [], 0⟩) ∧
    advanceJournal { freshMeta with n_skip := 1 } ⟨c5Entries, Loc.posAt 0, [], [], [], 0⟩
      = (2, ⟨c5Entries, Loc.posAt 2, [], [], [], 0⟩) ∧
    advanceJournal freshMeta ⟨c5Entries, Loc.posAt 0, [], [], [], 0⟩
      = (1, ⟨c5Entries, Loc.posAt 1, [], [], [], 0⟩) ∧
    (emitList 3 freshMeta c1Journal).2.2.1.n_skip = 0 := by
  refine ⟨?_, ?_, ?_, by decide⟩
  · exact (c2_advance_and_reset { freshMeta with n_skip := -1 } c5Entries [] [] [] 0 2).1
      (by decide) (by decide)
  · exact (c2_advance_and_reset { freshMeta with n_skip := 1 } c5Entries [] [] [] 0 0).2.1
      (by decide) (by decide)
  · exact (c2_advance_and_reset freshMeta c5Entries [] [] [] 0 0).2.2.1
      (by decide) (by decide)

/-- C7: Accept negotiation is total over the four-entry mode table by
exact string match; the three non-default MIME types select their
modes, anything else or an absent header yields Short, and parsing
never fails the request. -/
theorem c7_accept_negotiation (h : List Char) (m : RequestMeta) :
    (requestParseAccept (some "application/json".toList) m).mode
      = OutputMode.OUTPUT_JSON ∧
    (requestParseAccept (some "text/event-stream".toList) m).mode
      = OutputMode.OUTPUT_JSON_SSE ∧
    (requestParseAccept (some "application/vnd.fdo.journal".toList) m).mode
      = OutputMode.OUTPUT_EXPORT ∧
    (h ≠ "application/json".toList → h ≠ "text/event-stream".toList →
      h ≠ "application/vnd.fdo.journal".toList →
      (requestParseAccept (some h) m).mode = OutputMode.OUTPUT_SHORT) ∧
    requestParseAccept none m = m ∧
    (requestParseAccept none freshMeta).mode = OutputMode.OUTPUT_SHORT := by
  refine ⟨?_, ?_, ?_, ?_, rfl, rfl⟩
  · simp only [requestParseAccept]
    rw [if_pos (by decide)]
  · simp only [requestParseAccept]
    rw [if_neg (by decide), if_pos (by decide)]
  · simp only [requestParseAccept]
    rw [if_neg (by decide), if_neg (by decide), if_pos (by decide)]
  · intro h1 h2 h3
    simp only [requestParseAccept]
    rw [if_neg (by simpa [mime_types] using h1),
        if_neg (by simpa [mime_types] using h2),
        if_neg (by simpa [mime_types] using h3)]

/-- Witness for C7: an unrecognized Accept value falls back to Short. -/
theorem c7_accept_negotiation_witness :
    (requestParseAccept (some "text/plain".toList) freshMeta).mode
      = OutputMode.OUTPUT_SHORT :=
  (c7_accept_negotiation "text/plain".toList freshMeta).2.2.2.1
    (by decide) (by decide) (by decide)

/-- C10: no code path sets n_fields_set (or n_fields), so the fields
handler always commits a stream whose cap flag is false; with the flag
false the cap check never fires, end-of-stream happens only when the
unique enumeration is exhausted, and every unique value the enumeration
returns is serialized and delivered, in order, by contiguous pulls. -/
theorem c10_fields_no_cap :
    (∀ (accept : Option (List Char)) (field : List Char) (j0 : Journal)
        (mf : RequestMeta) (jf : Journal) (ct : String),
      request_handler_fields accept field j0 = HandlerResult.stream mf jf ct →
      mf.n_fields_set = false ∧ mf.n_fields = 0) ∧
    (∀ (rem : List (List Char)) (m : RequestMeta) (j : Journal),
      m.n_fields_set = false → j.uniques.drop j.uidx = rem →
      (∀ d ∈ rem, (output_field m.mode d).isSome = true) →
      ∃ mf jf, FieldsEmits m j (rem.map (fun d => (output_field m.mode d).getD [])) mf jf ∧
        mf.n_fields_set = false ∧ j.uniques.length ≤ jf.uidx) ∧
    (∀ (m : RequestMeta) (j : Journal) (m' : RequestMeta) (j' : Journal),
      m.n_fields_set = false → fieldsEmitNext m j = FieldStep.eos m' j' →
      j.uniques.length ≤ j.uidx) ∧
    (∀ (df lf max : Nat) (m : RequestMeta) (j : Journal) (L : List (List Char))
        (mf m2 : RequestMeta) (jf j2 : Journal) (bytes : List Char),
      m.tmp = none → m.size = 0 → m.delta = 0 → 1 ≤ max →
      FieldsEmits m j L mf jf →
      drainFields df lf m j 0 max = (bytes, DrainOutcome.eos, m2, j2) →
      bytes = L.flatten) := by
  refine ⟨?_, ?_, ?_, ?_⟩
  · intro accept field j0 mf jf ct h
    simp only [request_handler_fields, journalQueryUnique] at h
    rw [if_neg (by decide)] at h
    injection h with hm hj hct
    rw [← hm]
    exact ⟨(requestParseAccept_preserves accept freshMeta).1, by
      have := (requestParseAccept_preserves accept freshMeta).2.1
      rw [this]
      rfl⟩
  · intro rem m j hset hdrop hall
    obtain ⟨mf, jf, hEm, hset', _, hlen, _⟩ := fields_emits_all rem m j hset hdrop hall
    exact ⟨mf, jf, hEm, hset', hlen⟩
  · intro m j m' j' hset h
    exact (fieldsEmitNext_eos_exhaust hset h).1
  · intro df lf max m j L mf m2 jf j2 bytes htmp hsize hdelta hmax hEm hdrain
    have hInv : SpillInv m := by simp [SpillInv, htmp, hsize]
    have h0 : (0 : Nat) = m.delta + 0 := by omega
    rw [h0] at hdrain
    have := drainFields_spec df lf m j 0 max L mf jf bytes m2 j2 hInv (by omega) hmax
      hEm hdrain
    simpa [htmp] using this

/-- Witness for C10: a fields request over two unique values of field A
streams both serialized values and ends only at exhaustion. -/
theorem c10_fields_no_cap_witness :
    (request_handler_fields none "A".toList c10Journal
      = HandlerResult.stream freshMeta c10Journal "text/plain") ∧
    freshMeta.n_fields_set = false ∧
    FieldsEmits freshMeta c10Journal [['1', '\n'], ['2', '\n']]
      (fieldUpdate (fieldUpdate freshMeta ['1', '\n']) ['2', '\n'])
      { c10Journal with uidx := 2 } ∧
    drainFields 4 4 freshMeta c10Journal 0 8
      = (['1', '\n', '2', '\n'], DrainOutcome.eos,
         fieldUpdate (fieldUpdate freshMeta ['1', '\n']) ['2', '\n'],
         { c10Journal with uidx := 2 }) ∧
    ['1', '\n', '2', '\n'] = ([['1', '\n'], ['2', '\n']] : List (List Char)).flatten := by
  refine ⟨by decide, ?_, ⟨3, by decide⟩, by decide, ?_⟩
  · exact (c10_fields_no_cap.1 none "A".toList c10Journal freshMeta c10Journal
      "text/plain" (by decide)).1
  · exact c10_fields_no_cap.2.2.2 4 4 8 freshMeta c10Journal
      [['1', '\n'], ['2', '\n']]
      (fieldUpdate (fieldUpdate freshMeta ['1', '\n']) ['2', '\n'])
      (fieldUpdate (fieldUpdate freshMeta ['1', '\n']) ['2', '\n'])
      { c10Journal with uidx := 2 } { c10Journal with uidx := 2 } ['1', '\n', '2', '\n']
      rfl rfl rfl (by decide) ⟨3, by decide⟩ (by decide)

/-- C4: a discrete request without a cursor is answered 400 before any
streaming; with a cursor the handler forces the entry cap to one and the
pump emits exactly the matching record when the cursor test succeeds at
the seeked position, and nothing (immediate end-of-stream) when it does
not. -/
theorem c4_discrete (accept range_hdr : Option (List Char))
    (args : List (List Char × Option (List Char))) (bootId : Option (List Char))
    (j0 : Journal) (m1 : RequestMeta) :
    (requestParseRange range_hdr (requestParseAccept accept freshMeta) = some m1 →
      ¬ (request_parse_arguments bootId m1 j0 args).1.argument_parse_error < 0 →
      (request_parse_arguments bootId m1 j0 args).1.discrete = true →
      (request_parse_arguments bootId m1 j0 args).1.cursor = none →
      request_handler_entries accept range_hdr args bootId j0
        = HandlerResult.response 400 "text/plain") ∧
    (∀ c, requestParseRange range_hdr (requestParseAccept accept freshMeta) = some m1 →
      ¬ (request_parse_arguments bootId m1 j0 args).1.argument_parse_error < 0 →
      (request_parse_arguments bootId m1 j0 args).1.discrete = true →
      (request_parse_arguments bootId m1 j0 args).1.cursor = some c →
      request_handler_entries accept range_hdr args bootId j0
        = HandlerResult.stream
            { (request_parse_arguments bootId m1 j0 args).1 with
                n_entries := 1, n_entries_set := true }
            { (request_parse_arguments bootId m1 j0 args).2 with loc := Loc.seekCur c }
            (mime_types (request_parse_arguments bootId m1 j0 args).1.mode)) ∧
    (∀ (m : RequestMeta) (es : List Entry) (pend : List (List Entry))
        (ml un : List (List Char)) (ui : Nat) (c : String) (i : Nat) (e : Entry),
      m.discrete = true → m.cursor = some c → m.n_skip = 0 →
      m.n_entries_set = true → m.n_entries = 1 →
      findFirst (fun e => e.cursor = c) es = some i → es[i]? = some e →
      ∃ jf, Emits m ⟨es, Loc.seekCur c, pend, ml, un, ui⟩ [e] (recordUpdate m e) jf ∧
        (recordUpdate m e).n_entries = 0) ∧
    (∀ (m : RequestMeta) (es : List Entry) (pend : List (List Entry))
        (ml un : List (List Char)) (ui : Nat) (c : String),
      m.discrete = true → m.cursor = some c → m.n_skip = 0 →
      m.n_entries_set = true → m.n_entries = 1 →
      findFirst (fun e => e.cursor = c) es = none → es ≠ [] →
      ∃ jf, Emits m ⟨es, Loc.seekCur c, pend, ml, un, ui⟩ [] m jf) := by
  refine ⟨?_, ?_, ?_, ?_⟩
  · intro hrange herr hd hc
    simp only [request_handler_entries]
    rw [hrange]
    dsimp only
    rw [if_neg herr, if_pos ⟨hd, hc⟩]
  · intro c hrange herr hd hc
    simp only [request_handler_entries]
    rw [hrange]
    dsimp only
    rw [if_neg herr, if_neg (by simp [hc])]
    rw [if_pos hd]
    have hc3 : ({ (request_parse_arguments bootId m1 j0 args).1 with
        n_entries := 1, n_entries_set := true } : RequestMeta).cursor = some c := by
      simpa using hc
    rw [seekEntries_cursor hc3]
    dsimp only
    rw [if_neg (by decide)]
  · intro m es pend ml un ui c i e hd hc h0 hset hn hfind hget
    exact emits_discrete_match pend ml un ui hd hc h0 hset hn hfind hget
  · intro m es pend ml un ui c hd hc h0 hset hn hfind hne
    exact emits_discrete_mismatch pend ml un ui hd hc h0 hset hn hfind hne

/-- Witness for C4: a discrete request with no cursor is refused 400; a
discrete request for cursor x commits a one-capped stream seeked to x;
against a journal holding the record with cursor c1 the pump emits
exactly that record, and against one without it nothing. -/
theorem c4_discrete_witness :
    (request_handler_entries none none [("discrete".toList, none)] none emptyJournal
      = HandlerResult.response 400 "text/plain") ∧
    (request_handler_entries none (some "entries=x".toList)
        [("discrete".toList, none)] none emptyJournal
      = HandlerResult.stream
          { { freshMeta with cursor := some "x" } with
              discrete := true
              n_entries := 1
              n_entries_set := true }
          { emptyJournal with loc := Loc.seekCur "x" } "text/plain") ∧
    (∃ jf, Emits
        { freshMeta with
            discrete := true
            cursor := some "c1"
            n_entries := 1
            n_entries_set := true }
        ⟨[entryAB], Loc.seekCur "c1", [], [], [], 0⟩ [entryAB]
        (recordUpdate
          { freshMeta with
              discrete := true
              cursor := some "c1"
              n_entries := 1
              n_entries_set := true } entryAB) jf ∧
      (recordUpdate
        { freshMeta with
            discrete := true
            cursor := some "c1"
            n_entries := 1
            n_entries_set := true } entryAB).n_entries = 0) ∧
    (∃ jf, Emits
        { freshMeta with
            discrete := true
            cursor := some "x"
            n_entries := 1
            n_entries_set := true }
        ⟨[entryY], Loc.seekCur "x", [], [], [], 0⟩ []
        { freshMeta with
            discrete := true
            cursor := some "x"
            n_entries := 1
            n_entries_set := true } jf) := by
  refine ⟨?_, ?_, ?_, ?_⟩
  · exact (c4_discrete none none [("discrete".toList, none)] none emptyJournal
      freshMeta).1 (by decide) (by decide) (by decide) (by decide)
  · exact (c4_discrete none (some "entries=x".toList) [("discrete".toList, none)]
      none emptyJournal { freshMeta with cursor := some "x" }).2.1 "x"
      (by decide) (by decide) (by decide) (by decide)
  · exact (c4_discrete none none [] none emptyJournal freshMeta).2.2.1
      { freshMeta with
          discrete := true
          cursor := some "c1"
          n_entries := 1
          n_entries_set := true }
      [entryAB] [] [] [] 0 "c1" 0 entryAB
      (by decide) (by decide) (by decide) (by decide) (by decide) (by decide) (by decide)
  · exact (c4_discrete none none [] none emptyJournal freshMeta).2.2.2
      { freshMeta with
          discrete := true
          cursor := some "x"
          n_entries := 1
          n_entries_set := true }
      [entryY] [] [] [] 0 "x"
      (by decide) (by decide) (by decide) (by decide) (by decide) (by decide) (by decide)

/-- Counterexample to C6 as stated: a follow-mode discrete request whose
cursor does not match ends its stream normally although n_entries is
still 1, no error occurred and no client disconnected. -/
theorem c6_counterexample :
    c6Handler.isStream = true ∧
    c6Stream.1.follow = true ∧
    (drainEntries 5 5 c6Stream.1 c6Stream.2 0 8).2.1 = DrainOutcome.eos ∧
    (drainEntries 5 5 c6Stream.1 c6Stream.2 0 8).2.2.1.n_entries = 1 := by
  refine ⟨by decide, by decide, by decide, by decide⟩

/-- C6 as amended: in follow mode the pump never returns end-of-stream
because the journal is exhausted; when the advance reports no more
entries it waits and retries, so the stream can only end through the
entry cap reaching zero, a discrete cursor mismatch, an error, or
client disconnect. -/
theorem c6_follow_never_exhausts (f : Nat) (m : RequestMeta) (j : Journal)
    (m' : RequestMeta) (j' : Journal) :
    (m.follow = true → emitNext f m j = EmitStep.eos m' j' →
      (m'.n_entries_set = true ∧ m'.n_entries = 0) ∨
      (m'.discrete = true ∧ ∃ c, m'.cursor = some c ∧ journalTestCursor j' c = 0)) ∧
    (∀ (lpos max : Nat), m.follow = true → SpillInv m → lpos ≤ m.size → 1 ≤ max →
      entriesLoop f m j lpos max = (PumpResult.eos, m', j') →
      (m'.n_entries_set = true ∧ m'.n_entries = 0) ∨
      (m'.discrete = true ∧ ∃ c, m'.cursor = some c ∧ journalTestCursor j' c = 0)) := by
  constructor
  · intro hfol h
    exact emitNext_eos_follow f m j m' j' hfol h
  · intro lpos max hfol hInv hle hmax h
    obtain ⟨l1, mk, jk, hch, _, _, hstepE⟩ :=
      entriesLoop_eos_spec f m j lpos max m' j' hInv hle hmax h
    obtain ⟨g, hg⟩ := hstepE
    have hmk : mk.follow = true := by
      rw [(emitChain_flags hch).1, hfol]
    exact emitNext_eos_follow g mk jk m' j' hmk hg

/-- Witness for C6: a follow-mode discrete mismatch ends the loop with
the discrete disjunct holding. -/
theorem c6_follow_never_exhausts_witness :
    (c6Stream.1.n_entries_set = true ∧ c6Stream.1.n_entries = 0) ∨
    (c6Stream.1.discrete = true ∧
      ∃ c, c6Stream.1.cursor = some c ∧
        journalTestCursor ⟨[entryY], Loc.posAt 0, [], [], [], 0⟩ c = 0) := by
  have h := (c6_follow_never_exhausts 1 c6Stream.1 c6Stream.2 c6Stream.1
    ⟨[entryY], Loc.posAt 0, [], [], [], 0⟩).1 (by decide) (by decide)
  right
  rcases h with h | h
  · exact absurd h.2 (by decide)
  · exact h

/-- Counterexample to C1 as stated: offsets 0, 0, 1, 2 are monotonically
non-decreasing, the stream reaches end-of-stream, and the bytes returned
are a, a, b while the emitted records concatenate to a, b: a byte is
duplicated. -/
theorem c1_counterexample :
    pumpSeq 9 1 [0, 0, 1, 2] freshMeta c1Journal = (['a', 'a', 'b'], PumpResult.eos) ∧
    (emitList 3 freshMeta c1Journal).1 = [entryAB] ∧
    (([entryAB].map Entry.data).flatten = ['a', 'b']) ∧
    (['a', 'a', 'b'] : List Char) ≠ ['a', 'b'] := by
  refine ⟨by decide, by decide, by decide, by decide⟩

/-- C1 as amended: when the HTTP runtime pulls the entries pump at
contiguous offsets (each call at the previous offset plus the bytes
previously returned, starting from zero on a fresh connection) and the
stream reaches end-of-stream, the concatenation of the returned byte
slices equals the concatenation of the serialized records in emission
order, with no byte reordered, duplicated or dropped. -/
theorem c1_contiguous_stream (df lf max : Nat) (m : RequestMeta) (j : Journal)
    (L : List Entry) (mf m2 : RequestMeta) (jf j2 : Journal) (bytes : List Char)
    (htmp : m.tmp = none) (hsize : m.size = 0) (hdelta : m.delta = 0)
    (hmax : 1 ≤ max)
    (hEm : Emits m j L mf jf)
    (hdrain : drainEntries df lf m j 0 max = (bytes, DrainOutcome.eos, m2, j2)) :
    bytes = (L.map Entry.data).flatten := by
  have hInv : SpillInv m := by simp [SpillInv, htmp, hsize]
  have h0 : (0 : Nat) = m.delta + 0 := by omega
  rw [h0] at hdrain
  have := drainEntries_spec df lf m j 0 max L mf jf bytes m2 j2 hInv (by omega) hmax
    hEm hdrain
  simpa [htmp] using this

/-- Witness for C1: the fresh one-record connection pulled with one-byte
buffers delivers exactly the record's two bytes. -/
theorem c1_contiguous_stream_witness :
    freshMeta.tmp = none ∧ freshMeta.size = 0 ∧ freshMeta.delta = 0 ∧ (1 : Nat) ≤ 1 ∧
    Emits freshMeta c1Journal [entryAB] c1mf c1jf ∧
    drainEntries 4 4 freshMeta c1Journal 0 1 = (['a', 'b'], DrainOutcome.eos, c1mf, c1jf) ∧
    (['a', 'b'] : List Char) = ([entryAB].map Entry.data).flatten :=
  ⟨rfl, rfl, rfl, by decide, ⟨3, by decide⟩, by decide,
   c1_contiguous_stream 4 4 1 freshMeta c1Journal [entryAB] c1mf c1mf c1jf c1jf
     ['a', 'b'] rfl rfl rfl (by decide) ⟨3, by decide⟩ (by decide)⟩

/-- Counterexample to C3 as stated: a discrete request (which has
n_entries_set true and follow false) whose cursor does not match emits
zero records and ends the stream, although min(n_entries, entries
available from the seeked position) is 1. -/
theorem c3_counterexample :
    c3Handler.isStream = true ∧
    c3Stream.1.n_entries_set = true ∧
    c3Stream.1.follow = false ∧
    (emitList 3 c3Stream.1 c3Stream.2).1 = [] ∧
    (emitList 3 c3Stream.1 c3Stream.2).2.1 = EmitOutcome.fin ∧
    (drainEntries 5 5 c3Stream.1 c3Stream.2 0 8).1 = [] ∧
    (drainEntries 5 5 c3Stream.1 c3Stream.2 0 8).2.1 = DrainOutcome.eos ∧
    min c3Stream.1.n_entries c3Stream.2.entries.length = 1 := by
  refine ⟨by decide, by decide, by decide, by decide, by decide, by decide,
    by decide, by decide⟩

/-- C3 as amended: for a non-discrete entries stream with follow false,
a zero skip and the entry cap set, the records emitted before
end-of-stream are exactly the first n_entries entries available from the
seeded position, that is min(n_entries, entries available) records, and
contiguous pulls deliver exactly their serializations. -/
theorem c3_cap_exact_min (m : RequestMeta) (es : List Entry)
    (pend : List (List Entry)) (ml un : List (List Char)) (ui : Nat)
    (hset : m.n_entries_set = true) (hf : m.follow = false) (hd : m.discrete = false)
    (h0 : m.n_skip = 0) :
    (∃ mf jf, Emits m ⟨es, Loc.head, pend, ml, un, ui⟩ (es.take m.n_entries) mf jf) ∧
    (es.take m.n_entries).length = min m.n_entries es.length ∧
    (∀ (c : String) (i : Nat), findFirst (fun e => e.cursor = c) es = some i →
      ∃ mf jf, Emits m ⟨es, Loc.seekCur c, pend, ml, un, ui⟩
        ((es.drop i).take m.n_entries) mf jf) ∧
    (∀ (df lf max : Nat) (bytes : List Char) (m2 : RequestMeta) (j2 : Journal),
      1 ≤ max → m.tmp = none → m.size = 0 → m.delta = 0 →
      drainEntries df lf m ⟨es, Loc.head, pend, ml, un, ui⟩ 0 max
        = (bytes, DrainOutcome.eos, m2, j2) →
      bytes = ((es.take m.n_entries).map Entry.data).flatten) := by
  refine ⟨?_, by simp, ?_, ?_⟩
  · have := emits_fwd es m ⟨es, Loc.head, pend, ml, un, ui⟩ h0 hf hd
      (by simp [fwdRemaining])
    simpa [hset] using this
  · intro c i hfind
    have hrem : fwdRemaining ⟨es, Loc.seekCur c, pend, ml, un, ui⟩ = es.drop i := by
      simp [fwdRemaining, hfind]
    have := emits_fwd (es.drop i) m ⟨es, Loc.seekCur c, pend, ml, un, ui⟩ h0 hf hd hrem
    simpa [hset] using this
  · intro df lf max bytes m2 j2 hmax htmp hsize hdelta hdrain
    have hex : ∃ mf jf, Emits m ⟨es, Loc.head, pend, ml, un, ui⟩
        (es.take m.n_entries) mf jf := by
      have := emits_fwd es m ⟨es, Loc.head, pend, ml, un, ui⟩ h0 hf hd
        (by simp [fwdRemaining])
      simpa [hset] using this
    obtain ⟨mf, jf, hEm⟩ := hex
    have hInv : SpillInv m := by simp [SpillInv, htmp, hsize]
    have hz : (0 : Nat) = m.delta + 0 := by omega
    rw [hz] at hdrain
    have := drainEntries_spec df lf m ⟨es, Loc.head, pend, ml, un, ui⟩ 0 max
      (es.take m.n_entries) mf jf bytes m2 j2 hInv (by omega) hmax hEm hdrain
    simpa [htmp] using this

/-- Witness for C3: a cap of two over the three-record journal emits
exactly two records whose bytes are a then b. -/
theorem c3_cap_exact_min_witness :
    (drainEntries 8 8
        { freshMeta with
            n_entries := 2
            n_entries_set := true }
        ⟨c5Entries, Loc.head, [], [], [], 0⟩ 0 8
      = (['a', 'b'], DrainOutcome.eos,
         recordUpdate
           (recordUpdate
             { freshMeta with
                 n_entries := 2
                 n_entries_set := true } ⟨"e0", ['a']⟩) ⟨"e1", ['b']⟩,
         ⟨c5Entries, Loc.posAt 1, [], [], [], 0⟩)) ∧
    (['a', 'b'] : List Char)
      = ((c5Entries.take 2).map Entry.data).flatten := by
  refine ⟨by decide, ?_⟩
  exact (c3_cap_exact_min
      { freshMeta with
          n_entries := 2
          n_entries_set := true }
      c5Entries [] [] [] 0 (by decide) (by decide) (by decide) (by decide)).2.2.2
    8 8 8 ['a', 'b']
    (recordUpdate
      (recordUpdate
        { freshMeta with
            n_entries := 2
            n_entries_set := true } ⟨"e0", ['a']⟩) ⟨"e1", ['b']⟩)
    ⟨c5Entries, Loc.posAt 1, [], [], [], 0⟩
    (by decide) (by decide) (by decide) (by decide) (by decide)

/-- A non-discrete request whose parses succeed commits the streaming
response seeded by seekEntries. -/
theorem handler_entries_commits (accept range_hdr : Option (List Char))
    (args : List (List Char × Option (List Char))) (bootId : Option (List Char))
    (j0 : Journal) (m1 : RequestMeta)
    (hrange : requestParseRange range_hdr (requestParseAccept accept freshMeta) = some m1)
    (herr : ¬ (request_parse_arguments bootId m1 j0 args).1.argument_parse_error < 0)
    (hnd : ¬ ((request_parse_arguments bootId m1 j0 args).1.discrete = true ∧
              (request_parse_arguments bootId m1 j0 args).1.cursor = none))
    (hdisc : (request_parse_arguments bootId m1 j0 args).1.discrete = false) :
    request_handler_entries accept range_hdr args bootId j0
      = HandlerResult.stream (request_parse_arguments bootId m1 j0 args).1
          (seekEntries (request_parse_arguments bootId m1 j0 args).1
            (request_parse_arguments bootId m1 j0 args).2).2
          (mime_types (request_parse_arguments bootId m1 j0 args).1.mode) := by
  simp only [request_handler_entries]
  rw [hrange]
  dsimp only
  rw [if_neg herr, if_neg hnd]
  have hm3 : (if (request_parse_arguments bootId m1 j0 args).1.discrete = true
      then { (request_parse_arguments bootId m1 j0 args).1 with
               n_entries := 1, n_entries_set := true }
      else (request_parse_arguments bootId m1 j0 args).1)
      = (request_parse_arguments bootId m1 j0 args).1 := by
    rw [if_neg (by simp [hdisc])]
  rw [hm3]
  have hseek : ¬ (seekEntries (request_parse_arguments bootId m1 j0 args).1
      (request_parse_arguments bootId m1 j0 args).2).1 < 0 := by
    rw [seekEntries_ok]
    decide
  rw [if_neg hseek]

/-- Counterexample to C5 as stated: the request Range: entries=:-1:
against the three-record journal streams the bytes of the second-newest
record and then the newest, so traversal neither starts from the newest
entry nor moves backward. -/
theorem c5_counterexample :
    c5Handler.isStream = true ∧
    c5Stream.2.loc = Loc.tail ∧
    (drainEntries 8 8 c5Stream.1 c5Stream.2 0 8).2.1 = DrainOutcome.eos ∧
    (drainEntries 8 8 c5Stream.1 c5Stream.2 0 8).1 = ['b', 'c'] ∧
    (c5Entries.getLast?.map Entry.data) = some ['c'] ∧
    (drainEntries 8 8 c5Stream.1 c5Stream.2 0 8).1.head? ≠ some 'c' := by
  refine ⟨by decide, by decide, by decide, by decide, by decide, by decide⟩

/-- C5 as amended: the initial position is seeded from the cursor when
one is set, from the head when there is no cursor and the skip is
non-negative (a request with no headers then yields records in forward
order from the oldest), and from the tail when the skip is negative; in
that last case the first advance realizes min(n_skip-magnitude + 1, N)
steps back from the end and traversal then moves forward. -/
theorem c5_seeding_and_order :
    (∀ (m : RequestMeta) (j : Journal) (c : String), m.cursor = some c →
      seekEntries m j = (0, { j with loc := Loc.seekCur c })) ∧
    (∀ (m : RequestMeta) (j : Journal), m.cursor = none → 0 ≤ m.n_skip →
      seekEntries m j = (0, { j with loc := Loc.head })) ∧
    (∀ (m : RequestMeta) (j : Journal), m.cursor = none → m.n_skip < 0 →
      seekEntries m j = (0, { j with loc := Loc.tail })) ∧
    (∀ (j0 : Journal), request_handler_entries none none [] none j0
      = HandlerResult.stream freshMeta { j0 with loc := Loc.head } "text/plain") ∧
    (∀ (es : List Entry) (pend : List (List Entry)) (ml un : List (List Char)) (ui : Nat),
      ∃ mf jf, Emits freshMeta ⟨es, Loc.head, pend, ml, un, ui⟩ es mf jf) ∧
    (∀ (j0 : Journal), request_handler_entries none (some "entries=:-1:".toList) [] none j0
      = HandlerResult.stream { freshMeta with n_skip := -1 }
          { j0 with loc := Loc.tail } "text/plain") ∧
    (∀ (es : List Entry) (pend : List (List Entry)) (ml un : List (List Char)) (ui : Nat),
      ∃ mf jf, Emits { freshMeta with n_skip := -1 } ⟨es, Loc.tail, pend, ml, un, ui⟩
        (es.drop (es.length - min 2 es.length)) mf jf) := by
  refine ⟨?_, ?_, ?_, ?_, ?_, ?_, ?_⟩
  · intro m j c h
    exact seekEntries_cursor h
  · intro m j h hs
    exact seekEntries_head h hs
  · intro m j h hs
    exact seekEntries_tail h hs
  · intro j0
    rw [handler_entries_commits none none [] none j0 freshMeta (by decide)
      (by simp only [request_parse_arguments, runArgsIter]; decide)
      (by simp only [request_parse_arguments, runArgsIter]; decide)
      (by simp only [request_parse_arguments, runArgsIter]; decide)]
    simp only [request_parse_arguments, runArgsIter]
    rw [seekEntries_head (by decide) (by decide)]
    rfl
  · intro es pend ml un ui
    have := emits_fwd es freshMeta ⟨es, Loc.head, pend, ml, un, ui⟩
      (by decide) (by decide) (by decide) (by simp [fwdRemaining])
    simpa using this
  · intro j0
    rw [handler_entries_commits none (some "entries=:-1:".toList) [] none j0
      { freshMeta with n_skip := -1 } (by decide)
      (by simp only [request_parse_arguments, runArgsIter]; decide)
      (by simp only [request_parse_arguments, runArgsIter]; decide)
      (by simp only [request_parse_arguments, runArgsIter]; decide)]
    simp only [request_parse_arguments, runArgsIter]
    rw [seekEntries_tail (by decide) (by decide)]
    rfl
  · intro es pend ml un ui
    have := emits_tail_neg { freshMeta with n_skip := -1 } es pend ml un ui
      (by decide) (by decide) (by decide) (by decide)
    simpa using this

/-- Witness for C5: the seeding equations at a concrete state and the
tail-seeded emission on the three-record journal, which emits the two
newest records oldest-first. -/
theorem c5_seeding_and_order_witness :
    seekEntries { freshMeta with cursor := some "x" } emptyJournal
      = (0, { emptyJournal with loc := Loc.seekCur "x" }) ∧
    seekEntries freshMeta c5Journal = (0, { c5Journal with loc := Loc.head }) ∧
    seekEntries { freshMeta with n_skip := -1 } c5Journal
      = (0, { c5Journal with loc := Loc.tail }) ∧
    (request_handler_entries none none [] none c5Journal
      = HandlerResult.stream freshMeta { c5Journal with loc := Loc.head } "text/plain") ∧
    (∃ mf jf, Emits { freshMeta with n_skip := -1 } ⟨c5Entries, Loc.tail, [], [], [], 0⟩
      (c5Entries.drop (c5Entries.length - min 2 c5Entries.length)) mf jf) := by
  refine ⟨?_, ?_, ?_, ?_, ?_⟩
  · exact c5_seeding_and_order.1 { freshMeta with cursor := some "x" } emptyJournal "x"
      (by decide)
  · exact c5_seeding_and_order.2.1 freshMeta c5Journal (by decide) (by decide)
  · exact c5_seeding_and_order.2.2.1 { freshMeta with n_skip := -1 } c5Journal
      (by decide) (by decide)
  · exact c5_seeding_and_order.2.2.2.1 c5Journal
  · exact c5_seeding_and_order.2.2.2.2.2.2 c5Entries [] [] [] 0

/-- Counterexample to C9 as stated: when the boot-ID lookup fails on a
boot-filtered request, the iterator stops without touching the sticky
field, so request_parse_arguments reports success and the handler
commits a 200 stream instead of responding 400. -/
theorem c9_counterexample :
    c9Args.1.argument_parse_error = 0 ∧
    c9Handler.isStream = true := by
  refine ⟨by decide, by decide⟩

/-- C9 as amended: an empty key and an invalid boolean for follow,
discrete or boot are recorded in the sticky argument_parse_error field
and end iteration, request_parse_arguments surfaces the field and the
handler then responds 400; a boot-ID lookup failure however only stops
iteration, leaving the field at zero and the journal untouched, so the
request proceeds. -/
theorem c9_sticky_errors :
    (∀ (bootId : Option (List Char)) (m : RequestMeta) (j : Journal)
        (v : Option (List Char)) (rest : List (List Char × Option (List Char))),
      (request_parse_arguments bootId m j (([], v) :: rest)).1.argument_parse_error < 0) ∧
    (∀ (bootId : Option (List Char)) (m : RequestMeta) (j : Journal) (v : List Char)
        (rest : List (List Char × Option (List Char))), v ≠ [] → parse_boolean v < 0 →
      (request_parse_arguments bootId m j
        (("follow".toList, some v) :: rest)).1.argument_parse_error < 0) ∧
    (∀ (bootId : Option (List Char)) (m : RequestMeta) (j : Journal) (v : List Char)
        (rest : List (List Char × Option (List Char))), v ≠ [] → parse_boolean v < 0 →
      (request_parse_arguments bootId m j
        (("discrete".toList, some v) :: rest)).1.argument_parse_error < 0) ∧
    (∀ (bootId : Option (List Char)) (m : RequestMeta) (j : Journal) (v : List Char)
        (rest : List (List Char × Option (List Char))), v ≠ [] → parse_boolean v < 0 →
      (request_parse_arguments bootId m j
        (("boot".toList, some v) :: rest)).1.argument_parse_error < 0) ∧
    (∀ (m : RequestMeta) (j : Journal) (rest : List (List Char × Option (List Char))),
      (request_parse_arguments none m j
        (("boot".toList, none) :: rest)).1.argument_parse_error = 0 ∧
      (request_parse_arguments none m j (("boot".toList, none) :: rest)).2 = j) ∧
    (∀ (accept range_hdr : Option (List Char))
        (args : List (List Char × Option (List Char))) (bootId : Option (List Char))
        (j0 : Journal) (m1 : RequestMeta),
      requestParseRange range_hdr (requestParseAccept accept freshMeta) = some m1 →
      (request_parse_arguments bootId m1 j0 args).1.argument_parse_error < 0 →
      request_handler_entries accept range_hdr args bootId j0
        = HandlerResult.response 400 "text/plain") := by
  refine ⟨?_, ?_, ?_, ?_, ?_, ?_⟩
  · intro bootId m j v rest
    simp [request_parse_arguments, runArgsIter, request_parse_arguments_iterator]
  · intro bootId m j v rest hne hr
    obtain ⟨c, cs, rfl⟩ : ∃ c cs, v = c :: cs := by
      cases v
      · exact absurd rfl hne
      · exact ⟨_, _, rfl⟩
    simp +decide [request_parse_arguments, runArgsIter,
      request_parse_arguments_iterator, hr]
  · intro bootId m j v rest hne hr
    obtain ⟨c, cs, rfl⟩ : ∃ c cs, v = c :: cs := by
      cases v
      · exact absurd rfl hne
      · exact ⟨_, _, rfl⟩
    simp +decide [request_parse_arguments, runArgsIter,
      request_parse_arguments_iterator, hr]
  · intro bootId m j v rest hne hr
    obtain ⟨c, cs, rfl⟩ : ∃ c cs, v = c :: cs := by
      cases v
      · exact absurd rfl hne
      · exact ⟨_, _, rfl⟩
    simp +decide [request_parse_arguments, runArgsIter,
      request_parse_arguments_iterator, hr]
  · intro m j rest
    simp +decide [request_parse_arguments, runArgsIter,
      request_parse_arguments_iterator]
  · intro accept range_hdr args bootId j0 m1 hrange herr
    simp only [request_handler_entries]
    rw [hrange]
    dsimp only
    rw [if_pos herr]

/-- Witness for C9: an empty key and a bad boolean are recorded and
yield 400, while the failed boot-ID lookup leaves the field clear. -/
theorem c9_sticky_errors_witness :
    (request_parse_arguments none freshMeta emptyJournal
      [([], none)]).1.argument_parse_error < 0 ∧
    (request_parse_arguments none freshMeta emptyJournal
      [("follow".toList, some "bork".toList)]).1.argument_parse_error < 0 ∧
    (request_parse_arguments none freshMeta emptyJournal
      [("boot".toList, none)]).1.argument_parse_error = 0 ∧
    request_handler_entries none none [([], none)] none emptyJournal
      = HandlerResult.response 400 "text/plain" := by
  refine ⟨?_, ?_, ?_, ?_⟩
  · exact c9_sticky_errors.1 none freshMeta emptyJournal none []
  · exact c9_sticky_errors.2.1 none freshMeta emptyJournal "bork".toList []
      (by decide) (by decide)
  · exact (c9_sticky_errors.2.2.2.2.1 freshMeta emptyJournal []).1
  · exact c9_sticky_errors.2.2.2.2.2 none none [([], none)] none emptyJournal
      freshMeta (by decide) (by decide)

/-- Counterexample to C8 as stated: for the range header entries=a b:1
the text before the first colon is all of a b, yet the stored cursor is
cut at the first whitespace character and keeps only a. -/
theorem c8_counterexample :
    c8Parsed.map RequestMeta.cursor = some (some "a") ∧
    c8Parsed.map RequestMeta.cursor ≠ some (some "a b") := by
  refine ⟨by decide, by decide⟩

/-- C8 as amended: whenever request_parse_range accepts a header
entries=body, the cursor it stores is the text of the trimmed body
before the first colon, further truncated at its first whitespace
character (the NUL written at strcspn(cursor, WHITESPACE)), with the
empty result meaning no cursor. -/
theorem c8_cursor_truncation (body : List Char) (m mq : RequestMeta)
    (h : requestParseRange (some ("entries=".toList ++ body)) m = some mq) :
    mq.cursor = specRangeCursor body := by
  have hsw : startswith ("entries=".toList ++ body) "entries=".toList = true :=
    startswith_append _ _
  have hdrop : ("entries=".toList ++ body).drop 8 = body := by
    rw [show (8 : Nat) = ("entries=".toList).length from by decide, List.drop_left]
  simp only [requestParseRange, hsw, Bool.true_eq_false, if_false, hdrop] at h
  simp only [specRangeCursor]
  cases hf : findFirst (fun c => c = ':') (body.dropWhile (fun c => isWS c)) with
  | none =>
      rw [hf] at h
      dsimp only at h
      injection h with h2
      subst h2
      dsimp only
      rw [finalizeCursor_cursor]
  | some k =>
      rw [hf] at h
      dsimp only at h
      dsimp only
      cases hf2 : findFirst (fun c => c = ':')
          ((body.dropWhile (fun c => isWS c)).drop (k + 1)) with
      | none =>
          rw [hf2] at h
          dsimp only at h
          by_cases hp : (body.dropWhile (fun c => isWS c)).drop (k + 1) = []
          · rw [if_pos hp] at h
            injection h with h2
            subst h2
            rw [finalizeCursor_cursor]
          · rw [if_neg hp] at h
            cases hn : safe_atou64 ((body.dropWhile (fun c => isWS c)).drop (k + 1)) with
            | none =>
                rw [hn] at h
                exact absurd h (by simp)
            | some n =>
                rw [hn] at h
                dsimp only at h
                by_cases hz : n = 0
                · rw [if_pos hz] at h
                  exact absurd h (by simp)
                · rw [if_neg hz] at h
                  injection h with h2
                  subst h2
                  rw [finalizeCursor_cursor]
      | some k2 =>
          rw [hf2] at h
          dsimp only at h
          cases ha : safe_atoi64
              (((body.dropWhile (fun c => isWS c)).drop (k + 1)).take k2) with
          | none =>
              rw [ha] at h
              exact absurd h (by simp)
          | some sk =>
              rw [ha] at h
              dsimp only at h
              by_cases hp : ((body.dropWhile (fun c => isWS c)).drop (k + 1)).drop (k2 + 1) = []
              · rw [if_pos hp] at h
                injection h with h2
                subst h2
                rw [finalizeCursor_cursor]
              · rw [if_neg hp] at h
                cases hn : safe_atou64
                    (((body.dropWhile (fun c => isWS c)).drop (k + 1)).drop (k2 + 1)) with
                | none =>
                    rw [hn] at h
                    exact absurd h (by simp)
                | some n =>
                    rw [hn] at h
                    dsimp only at h
                    by_cases hz : n = 0
                    · rw [if_pos hz] at h
                      exact absurd h (by simp)
                    · rw [if_neg hz] at h
                      injection h with h2
                      subst h2
                      rw [finalizeCursor_cursor]

/-- Witness for C8: the header entries=abc:2 parses and its stored
cursor is abc, as the amended rule computes. -/
theorem c8_cursor_truncation_witness :
    requestParseRange (some ("entries=".toList ++ "abc:2".toList)) freshMeta = some c8w ∧
    c8w.cursor = specRangeCursor "abc:2".toList ∧
    c8w.cursor = some "abc" := by
  refine ⟨by decide, ?_, by decide⟩
  exact c8_cursor_truncation "abc:2".toList freshMeta c8w (by decide)
